/-
Verification of the conflict-detection and conflict-clustering subsystem
(`find_conflict_slow` and `get_conflict_sets` from
`crates/rbuilder/src/building/conflict.rs`).

The Rust `HashMap`s are embedded as association lists whose `insert`
replaces any previous binding of the key; `HashSet<OrderId>` is embedded as
`Finset Nat`.  The external simulation infrastructure (`BlockState`,
`PartialBlockFork::commit_order`, the state-provider handle) is not part of
the analysed sources and is modelled from the spec as an abstract
environment `SimEnv` threaded linearly through the computation, exactly as
the source threads the provider handle.
-/
import Mathlib

namespace RBuilder

/-! ### Association lists (embedding of `HashMap`) -/

/-- Remove every binding of key `k` (embeds the key-replacement part of
`HashMap::insert` / `HashMap::remove`). -/
def alRemove {α β : Type} [DecidableEq α] (l : List (α × β)) (k : α) : List (α × β) :=
  l.filter (fun p => decide (p.1 ≠ k))

/-- `HashMap::insert`: bind `k` to `v`, replacing any previous binding. -/
def alInsert {α β : Type} [DecidableEq α] (l : List (α × β)) (k : α) (v : β) : List (α × β) :=
  (k, v) :: alRemove l k

/-- `HashMap::get`. -/
def alGet {α β : Type} [DecidableEq α] (l : List (α × β)) (k : α) : Option β :=
  (l.find? (fun p => decide (p.1 = k))).map Prod.snd

theorem alGet_nil {α β : Type} [DecidableEq α] (k : α) :
    alGet ([] : List (α × β)) k = none := rfl

theorem alGet_cons {α β : Type} [DecidableEq α] (a : α) (b : β) (l : List (α × β)) (k : α) :
    alGet ((a, b) :: l) k = if a = k then some b else alGet l k := by
  by_cases h : a = k <;> simp [alGet, List.find?, h]

theorem alRemove_cons {α β : Type} [DecidableEq α] (a : α) (b : β) (l : List (α × β)) (k : α) :
    alRemove ((a, b) :: l) k =
      if a = k then alRemove l k else (a, b) :: alRemove l k := by
  by_cases h : a = k <;> simp [alRemove, List.filter_cons, h]

theorem alGet_alRemove {α β : Type} [DecidableEq α] (l : List (α × β)) (k k' : α) :
    alGet (alRemove l k) k' = if k' = k then none else alGet l k' := by
  induction l with
  | nil => by_cases h : k' = k <;> simp [alRemove, alGet_nil, h]
  | cons p l ih =>
    obtain ⟨a, b⟩ := p
    rw [alRemove_cons]
    by_cases hak : a = k
    · rw [if_pos hak, ih]
      by_cases hk : k' = k
      · simp [hk]
      · rw [if_neg hk, if_neg hk, alGet_cons, if_neg]
        intro hax
        exact hk (hax ▸ hak)
    · rw [if_neg hak, alGet_cons]
      by_cases hak' : a = k'
      · rw [if_pos hak', if_neg (show ¬k' = k from fun hc => hak (hak'.trans hc)),
          alGet_cons, if_pos hak']
      · rw [if_neg hak', ih]
        by_cases hk : k' = k
        · simp [hk]
        · rw [if_neg hk, if_neg hk, alGet_cons, if_neg hak']

theorem alGet_alInsert {α β : Type} [DecidableEq α] (l : List (α × β)) (k k' : α) (v : β) :
    alGet (alInsert l k v) k' = if k = k' then some v else alGet l k' := by
  rw [alInsert, alGet_cons]
  by_cases h : k = k'
  · simp [h]
  · rw [if_neg h, if_neg h, alGet_alRemove, if_neg (fun hc => h hc.symm)]

theorem alGet_alInsert_self {α β : Type} [DecidableEq α] (l : List (α × β)) (k : α) (v : β) :
    alGet (alInsert l k v) k = some v := by simp [alGet_alInsert]

theorem alGet_alInsert_ne {α β : Type} [DecidableEq α] (l : List (α × β)) {k k' : α} (v : β)
    (h : k ≠ k') : alGet (alInsert l k v) k' = alGet l k' := by simp [alGet_alInsert, h]

theorem alGet_isSome_of_mem {α β : Type} [DecidableEq α] {l : List (α × β)} {p : α × β} :
    p ∈ l → (alGet l p.1).isSome := by
  induction l with
  | nil => intro h; cases h
  | cons q l ih =>
    intro h
    obtain ⟨a, b⟩ := q
    rw [alGet_cons]
    by_cases hak : a = p.1
    · simp [hak]
    · rw [if_neg hak]
      rcases List.mem_cons.mp h with h | h
      · subst h; exact absurd rfl hak
      · exact ih h

theorem mem_of_alGet_eq_some {α β : Type} [DecidableEq α] {l : List (α × β)} {k : α} {v : β}
    (h : alGet l k = some v) : (k, v) ∈ l := by
  induction l with
  | nil => simp [alGet_nil] at h
  | cons q l ih =>
    obtain ⟨a, b⟩ := q
    rw [alGet_cons] at h
    by_cases hak : a = k
    · subst hak
      simp at h
      simp [h]
    · rw [if_neg hak] at h
      exact List.mem_cons_of_mem _ (ih h)

theorem keys_nodup_alInsert {α β : Type} [DecidableEq α] {l : List (α × β)}
    (h : (l.map Prod.fst).Nodup) (k : α) (v : β) :
    ((alInsert l k v).map Prod.fst).Nodup := by
  refine List.Nodup.cons ?_ ?_
  · intro hmem
    simp only [List.mem_map] at hmem
    obtain ⟨p, hp, hpk⟩ := hmem
    have := List.of_mem_filter hp
    simp only [decide_not, Bool.not_eq_eq_eq_not, Bool.not_true, decide_eq_false_iff_not] at this
    exact this hpk
  · exact List.Nodup.sublist ((List.filter_sublist l).map Prod.fst) h

/-! ### Data model

`OrderId` and `Address` are embedded as `Nat`; coinbase profit (`U256`) as
`Nat`, since the analysis only compares profits for equality. -/

/-- Modelled from the spec: an order's account-nonce precondition, a
`(address, optional)` pair produced by `Order::nonces()` (the concrete
`Nonce` type lives outside the analysed sources). -/
structure Nonce where
  address : Nat
  optional : Bool
deriving DecidableEq, Repr

/-- Modelled from the spec: an order exposes a stable unique `id()` and its
declared nonce dependencies `nonces()` (the concrete `Order` type lives
outside the analysed sources). -/
structure Order where
  id : Nat
  nonces : List Nonce
deriving DecidableEq, Repr

/-- Conflict generated by executing an order before another
(`enum Conflict` in `conflict.rs`). -/
inductive Conflict where
  | NoConflict
  | Nonce (address : Nat)
  | Fatal
  | DifferentProfit (profit_alone : Nat) (profit_with_conflict : Nat)
deriving DecidableEq, Repr

/-- Modelled from the spec: the order-level result of a successful
simulation — gas used, blob gas used and coinbase profit. -/
structure SimResult where
  coinbase_profit : Nat
  gas_used : Nat
  blob_gas_used : Nat
deriving DecidableEq, Repr

/-- Modelled from the spec: the state-fork capability consumed by the
analyzer.  `P` is the type of the reusable state-provider handle, `S` the
type of a mutable block-state fork, `E` the type of infrastructure errors.
`commitOrder s o gas blobGas` commits order `o` against fork `s` with the
given accumulated gas counters and returns either an infrastructure error
(outer `Except`) or the mutated fork together with the order-level outcome
(inner `Except`: `.error ()` when the order fails inside a valid
simulation). -/
structure SimEnv (P S E : Type) where
  newState : P → S
  commitOrder : S → Order → Nat → Nat → Except E (S × Except Unit SimResult)
  intoProvider : S → P

/-- A `ConflictMap`: `HashMap<(OrderId, OrderId), Conflict>` as an
association list. -/
abbrev ConflictMap := List ((Nat × Nat) × Conflict)

/-! ### `find_conflict_slow` -/

/-- The `nonce_map` built from `order1.nonces()`: each dependency is
inserted keyed by its address, a later declaration replacing an earlier
one for the same address. -/
def buildNonceMap (nonces : List Nonce) : List (Nat × Nonce) :=
  nonces.foldl (fun m n => alInsert m n.address n) []

/-- The nonce short-circuit test: the first dependency of `order2` whose
address is bound in `nonce_map` with neither declaration optional. -/
def findNonceConflict (nonce_map : List (Nat × Nonce)) (nonces2 : List Nonce) : Option Nonce :=
  nonces2.find? (fun n =>
    match alGet nonce_map n.address with
    | some m => !(n.optional || m.optional) && decide (n.address = m.address)
    | none => false)

/-- The `profits_alone` loop: commit each order alone against a fresh fork
of the threaded provider handle, recording its coinbase profit keyed by
order id when it succeeds. -/
def computeProfitsAlone {P S E : Type} (env : SimEnv P S E) :
    P → List Order → List (Nat × Nat) → Except E (P × List (Nat × Nat))
  | p, [], acc => .ok (p, acc)
  | p, o :: rest, acc =>
    match env.commitOrder (env.newState p) o 0 0 with
    | .error e => .error e
    | .ok (s, r) =>
      let acc' := match r with
        | .ok res => alInsert acc o.id res.coinbase_profit
        | .error _ => acc
      computeProfitsAlone env (env.intoProvider s) rest acc'

/-- The body of the pair-classification loop of `find_conflict_slow` for a
single ordered pair `(order1, order2)`: skip pairs lacking a baseline or
with equal ids, apply the nonce short-circuit, otherwise simulate the pair
on a fresh fork, recording the resulting classification. -/
def processPair {P S E : Type} (env : SimEnv P S E) (profits_alone : List (Nat × Nat)) (p : P)
    (order1 order2 : Order) (results : ConflictMap) : Except E (P × ConflictMap) :=
  match alGet profits_alone order1.id, alGet profits_alone order2.id with
  | some _, some profit2_alone =>
    if order1.id = order2.id then .ok (p, results)
    else
      let pair := (order1.id, order2.id)
      let nonce_map := buildNonceMap order1.nonces
      match findNonceConflict nonce_map order2.nonces with
      | some nonce => .ok (p, alInsert results pair (Conflict.Nonce nonce.address))
      | none =>
        match env.commitOrder (env.newState p) order1 0 0 with
        | .error e => .error e
        | .ok (s1, r1) =>
          let acc := match r1 with
            | .ok res => (res.gas_used, res.blob_gas_used, results)
            | .error _ => ((0 : Nat), (0 : Nat), alInsert results pair Conflict.Fatal)
          match env.commitOrder s1 order2 acc.1 acc.2.1 with
          | .error e => .error e
          | .ok (s2, r2) =>
            let results2 := match r2 with
              | .ok re =>
                let conflict := if profit2_alone = re.coinbase_profit then Conflict.NoConflict
                  else Conflict.DifferentProfit profit2_alone re.coinbase_profit
                alInsert acc.2.2 pair conflict
              | .error _ => alInsert acc.2.2 pair Conflict.Fatal
            .ok (env.intoProvider s2, results2)
  | _, _ => .ok (p, results)

/-- The pair-classification loop over the explicit list of ordered pairs,
threading the provider handle and the accumulated results. -/
def processPairs {P S E : Type} (env : SimEnv P S E) (profits_alone : List (Nat × Nat)) :
    P → List (Order × Order) → ConflictMap → Except E (P × ConflictMap)
  | p, [], results => .ok (p, results)
  | p, (o1, o2) :: rest, results =>
    match processPair env profits_alone p o1 o2 results with
    | .error e => .error e
    | .ok (p', results') => processPairs env profits_alone p' rest results'

/-- `orders.iter().cartesian_product(orders.iter())`. -/
def cartesianPairs (orders : List Order) : List (Order × Order) :=
  orders.flatMap (fun o1 => orders.map (fun o2 => (o1, o2)))

/-- `find_conflict_slow`: compute baseline profits, then classify every
ordered pair, returning the `ConflictMap` or the first infrastructure
error. -/
def find_conflict_slow {P S E : Type} (env : SimEnv P S E) (state_provider : P)
    (orders : List Order) : Except E ConflictMap :=
  match computeProfitsAlone env state_provider orders [] with
  | .error e => .error e
  | .ok (p, profits_alone) =>
    match processPairs env profits_alone p (cartesianPairs orders) [] with
    | .error e => .error e
    | .ok (_, results) => .ok results

/-! ### `get_conflict_sets` -/

/-- State of the clustering loop of `get_conflict_sets`: the fresh-set
counter `set_id`, the `conflict_sets` arena (set identifier → members,
an association list embedding `HashMap<i32, HashSet<OrderId>>`) and the
`order_to_conflict_set` reverse lookup (embedded as a function updated
pointwise, extensionally matching the source's `HashMap<OrderId, i32>`). -/
structure CSState where
  setId : Int
  sets : List (Int × Finset Nat)
  toSet : Nat → Option Int

def initialCSState : CSState := ⟨0, [], fun _ => none⟩

/-- The body of the clustering loop of `get_conflict_sets` for a single
ConflictMap entry `((k1, k2), conflict)`. -/
def clusterStep (s : CSState) (e : (Nat × Nat) × Conflict) : CSState :=
  if e.2 = Conflict.NoConflict then s
  else
    let k1 := e.1.1
    let k2 := e.1.2
    match s.toSet k1, s.toSet k2 with
    | some set1id, some set2id =>
      if set1id = set2id then s
      else
        -- merge two conflict sets
        let set1 := (alGet s.sets set1id).getD ∅
        let set2 := (alGet s.sets set2id).getD ∅
        { setId := s.setId
          sets := alInsert (alRemove (alRemove s.sets set1id) set2id) set1id (set1 ∪ set2)
          toSet := fun k => if k ∈ set2 then some set1id else s.toSet k }
    | some i, none =>
      let set := (alGet s.sets i).getD ∅
      { setId := s.setId
        sets := alInsert s.sets i (insert k1 (insert k2 set))
        toSet := fun k => if k = k1 ∨ k = k2 then some i else s.toSet k }
    | none, some i =>
      let set := (alGet s.sets i).getD ∅
      { setId := s.setId
        sets := alInsert s.sets i (insert k1 (insert k2 set))
        toSet := fun k => if k = k1 ∨ k = k2 then some i else s.toSet k }
    | none, none =>
      { setId := s.setId + 1
        sets := alInsert s.sets s.setId {k1, k2}
        toSet := fun k => if k = k1 ∨ k = k2 then some s.setId else s.toSet k }

/-- Run the clustering loop over the entries in their given iteration
order. -/
def runClusters (entries : ConflictMap) : CSState :=
  entries.foldl clusterStep initialCSState

/-- Insertion step of the final sort of the conflict sets in descending
order of member count (`sort_by_key(Reverse(len))`). -/
def insertBySizeDesc (S : Finset Nat) : List (Finset Nat) → List (Finset Nat)
  | [] => [S]
  | T :: rest => if S.card ≤ T.card then T :: insertBySizeDesc S rest else S :: T :: rest

/-- Sort a list of conflict sets in descending order of member count. -/
def sortBySizeDesc : List (Finset Nat) → List (Finset Nat)
  | [] => []
  | S :: rest => insertBySizeDesc S (sortBySizeDesc rest)

/-- `get_conflict_sets`: run the clustering loop over the map's entries
and return the values of the `conflict_sets` arena, largest first. -/
def get_conflict_sets (conflicts : ConflictMap) : List (Finset Nat) :=
  sortBySizeDesc ((runClusters conflicts).sets.map Prod.snd)

theorem insertBySizeDesc_perm (S : Finset Nat) (l : List (Finset Nat)) :
    (insertBySizeDesc S l).Perm (S :: l) := by
  induction l with
  | nil => exact List.Perm.refl _
  | cons T rest ih =>
    rw [insertBySizeDesc]
    by_cases h : S.card ≤ T.card
    · rw [if_pos h]
      exact (ih.cons T).trans (List.Perm.swap S T rest)
    · rw [if_neg h]

theorem sortBySizeDesc_perm (l : List (Finset Nat)) : (sortBySizeDesc l).Perm l := by
  induction l with
  | nil => exact List.Perm.refl _
  | cons S rest ih => exact (insertBySizeDesc_perm S (sortBySizeDesc rest)).trans (ih.cons S)

theorem mem_get_conflict_sets (conflicts : ConflictMap) (S : Finset Nat) :
    S ∈ get_conflict_sets conflicts ↔ S ∈ (runClusters conflicts).sets.map Prod.snd :=
  (sortBySizeDesc_perm _).mem_iff

/-! ### Semantics of the nonce short-circuit -/

theorem alRemove_alRemove {α β : Type} [DecidableEq α] (l : List (α × β)) (k : α) :
    alRemove (alRemove l k) k = alRemove l k := by
  induction l with
  | nil => rfl
  | cons p l ih =>
    obtain ⟨a, b⟩ := p
    by_cases h : a = k
    · rw [alRemove_cons, if_pos h, ih]
    · rw [alRemove_cons, if_neg h, alRemove_cons, if_neg h, ih]

theorem alInsert_alInsert {α β : Type} [DecidableEq α] (l : List (α × β)) (k : α) (v w : β) :
    alInsert (alInsert l k v) k w = alInsert l k w := by
  show (k, w) :: alRemove ((k, v) :: alRemove l k) k = (k, w) :: alRemove l k
  rw [alRemove_cons, if_pos rfl, alRemove_alRemove]

/-- Whether the last dependency declared in `ns` for address `addr` (the
one surviving in the source's `nonce_map`) exists and is non-optional. -/
def lastDeclNonOptional (ns : List Nonce) (addr : Nat) : Bool :=
  match ns.reverse.find? (fun m => m.address == addr) with
  | some m => !m.optional
  | none => false

/-- The effective pair-collision test of the source: the dependency `n`
declared by the second order is non-optional and the last dependency the
first order declared for the same address is non-optional too. -/
def nonceCollides (ns1 : List Nonce) (n : Nonce) : Bool :=
  !n.optional && lastDeclNonOptional ns1 n.address

theorem alGet_buildNonceMap_loop (ns : List Nonce) (acc : List (Nat × Nonce)) (addr : Nat) :
    alGet (ns.foldl (fun m n => alInsert m n.address n) acc) addr =
      match ns.reverse.find? (fun m => m.address == addr) with
      | some m => some m
      | none => alGet acc addr := by
  induction ns generalizing acc with
  | nil => rfl
  | cons n ns ih =>
    rw [List.foldl_cons, ih, List.reverse_cons, List.find?_append]
    cases hf : ns.reverse.find? (fun m => m.address == addr) with
    | some m => rfl
    | none =>
      show alGet (alInsert acc n.address n) addr =
        match List.find? (fun m => m.address == addr) [n] with
        | some m => some m
        | none => alGet acc addr
      rw [alGet_alInsert]
      by_cases h : n.address = addr
      · rw [if_pos h, List.find?_cons_of_pos _ (by simp [h])]
      · rw [if_neg h, List.find?_cons_of_neg _ (by simp [h]), List.find?_nil]

/-- The lookup into the source's `nonce_map` retrieves the last
declaration for the given address. -/
theorem alGet_buildNonceMap (ns : List Nonce) (addr : Nat) :
    alGet (buildNonceMap ns) addr = ns.reverse.find? (fun m => m.address == addr) := by
  rw [buildNonceMap, alGet_buildNonceMap_loop]
  cases ns.reverse.find? (fun m => m.address == addr) <;> rfl

/-- The source's nonce short-circuit finds precisely the first dependency
of the second order that collides (in the sense of `nonceCollides`) with
the first order's declarations. -/
theorem findNonceConflict_eq (ns1 ns2 : List Nonce) :
    findNonceConflict (buildNonceMap ns1) ns2 = ns2.find? (nonceCollides ns1) := by
  unfold findNonceConflict
  congr 1
  funext n
  rw [alGet_buildNonceMap]
  unfold nonceCollides lastDeclNonOptional
  cases hf : ns1.reverse.find? (fun m => m.address == n.address) with
  | some m =>
    have hm := List.find?_some hf
    simp only [beq_iff_eq] at hm
    simp [hm, Bool.not_or]
  | none => simp

/-! ### Case analysis of the pair-classification step -/

/-- The classification recorded for a pair from the outcome of the second
order's commit: `Fatal` on order-level failure, otherwise the comparison
of the in-context coinbase profit against the baseline profit. -/
def conflictOfOutcome (v2 : Nat) (r2 : Except Unit SimResult) : Conflict :=
  match r2 with
  | .ok re => if v2 = re.coinbase_profit then Conflict.NoConflict
      else Conflict.DifferentProfit v2 re.coinbase_profit
  | .error _ => Conflict.Fatal

section PairLemmas

variable {P S E : Type} (env : SimEnv P S E) (pr : List (Nat × Nat)) (p : P)

theorem processPair_skip1 (o1 o2 : Order) (res : ConflictMap)
    (h : alGet pr o1.id = none) :
    processPair env pr p o1 o2 res = .ok (p, res) := by
  unfold processPair
  rw [h]

theorem processPair_skip2 (o1 o2 : Order) (res : ConflictMap)
    (h : alGet pr o2.id = none) :
    processPair env pr p o1 o2 res = .ok (p, res) := by
  unfold processPair
  rw [h]
  cases alGet pr o1.id <;> rfl

theorem processPair_skip_eq (o1 o2 : Order) (res : ConflictMap) {v1 v2 : Nat}
    (h1 : alGet pr o1.id = some v1) (h2 : alGet pr o2.id = some v2)
    (he : o1.id = o2.id) :
    processPair env pr p o1 o2 res = .ok (p, res) := by
  unfold processPair
  rw [h1, h2]
  dsimp only
  rw [if_pos he]

theorem processPair_nonce (o1 o2 : Order) (res : ConflictMap) {v1 v2 : Nat} {n : Nonce}
    (h1 : alGet pr o1.id = some v1) (h2 : alGet pr o2.id = some v2)
    (hne : o1.id ≠ o2.id)
    (hn : findNonceConflict (buildNonceMap o1.nonces) o2.nonces = some n) :
    processPair env pr p o1 o2 res =
      .ok (p, alInsert res (o1.id, o2.id) (Conflict.Nonce n.address)) := by
  unfold processPair
  rw [h1, h2]
  dsimp only
  rw [if_neg hne, hn]

theorem processPair_err1 (o1 o2 : Order) (res : ConflictMap) {v1 v2 : Nat} {e : E}
    (h1 : alGet pr o1.id = some v1) (h2 : alGet pr o2.id = some v2)
    (hne : o1.id ≠ o2.id)
    (hn : findNonceConflict (buildNonceMap o1.nonces) o2.nonces = none)
    (hc : env.commitOrder (env.newState p) o1 0 0 = .error e) :
    processPair env pr p o1 o2 res = .error e := by
  unfold processPair
  rw [h1, h2]
  dsimp only
  rw [if_neg hne, hn, hc]

theorem processPair_err2_ok (o1 o2 : Order) (res : ConflictMap) {v1 v2 : Nat} {e : E}
    {s1 : S} {r1res : SimResult}
    (h1 : alGet pr o1.id = some v1) (h2 : alGet pr o2.id = some v2)
    (hne : o1.id ≠ o2.id)
    (hn : findNonceConflict (buildNonceMap o1.nonces) o2.nonces = none)
    (hc1 : env.commitOrder (env.newState p) o1 0 0 = .ok (s1, .ok r1res))
    (hc2 : env.commitOrder s1 o2 r1res.gas_used r1res.blob_gas_used = .error e) :
    processPair env pr p o1 o2 res = .error e := by
  unfold processPair
  rw [h1, h2]
  dsimp only
  rw [if_neg hne, hn, hc1]
  dsimp only
  rw [hc2]

theorem processPair_err2_fail1 (o1 o2 : Order) (res : ConflictMap) {v1 v2 : Nat} {e : E}
    {s1 : S}
    (h1 : alGet pr o1.id = some v1) (h2 : alGet pr o2.id = some v2)
    (hne : o1.id ≠ o2.id)
    (hn : findNonceConflict (buildNonceMap o1.nonces) o2.nonces = none)
    (hc1 : env.commitOrder (env.newState p) o1 0 0 = .ok (s1, .error ()))
    (hc2 : env.commitOrder s1 o2 0 0 = .error e) :
    processPair env pr p o1 o2 res = .error e := by
  unfold processPair
  rw [h1, h2]
  dsimp only
  rw [if_neg hne, hn, hc1]
  dsimp only
  rw [hc2]

theorem processPair_sim_ok (o1 o2 : Order) (res : ConflictMap) {v1 v2 : Nat}
    {s1 s2 : S} {r1res : SimResult} {r2 : Except Unit SimResult}
    (h1 : alGet pr o1.id = some v1) (h2 : alGet pr o2.id = some v2)
    (hne : o1.id ≠ o2.id)
    (hn : findNonceConflict (buildNonceMap o1.nonces) o2.nonces = none)
    (hc1 : env.commitOrder (env.newState p) o1 0 0 = .ok (s1, .ok r1res))
    (hc2 : env.commitOrder s1 o2 r1res.gas_used r1res.blob_gas_used = .ok (s2, r2)) :
    processPair env pr p o1 o2 res = .ok (env.intoProvider s2,
      alInsert res (o1.id, o2.id) (conflictOfOutcome v2 r2)) := by
  unfold processPair
  rw [h1, h2]
  dsimp only
  rw [if_neg hne, hn, hc1]
  dsimp only
  rw [hc2]
  clear hc2
  cases r2 <;> rfl

theorem processPair_sim_fail1 (o1 o2 : Order) (res : ConflictMap) {v1 v2 : Nat}
    {s1 s2 : S} {r2 : Except Unit SimResult}
    (h1 : alGet pr o1.id = some v1) (h2 : alGet pr o2.id = some v2)
    (hne : o1.id ≠ o2.id)
    (hn : findNonceConflict (buildNonceMap o1.nonces) o2.nonces = none)
    (hc1 : env.commitOrder (env.newState p) o1 0 0 = .ok (s1, .error ()))
    (hc2 : env.commitOrder s1 o2 0 0 = .ok (s2, r2)) :
    processPair env pr p o1 o2 res = .ok (env.intoProvider s2,
      alInsert res (o1.id, o2.id) (conflictOfOutcome v2 r2)) := by
  unfold processPair
  rw [h1, h2]
  dsimp only
  rw [if_neg hne, hn, hc1]
  dsimp only
  rw [hc2]
  clear hc2
  cases r2 <;> (dsimp only; rw [alInsert_alInsert]) <;> rfl

end PairLemmas

/-- Every successful pair-classification step either leaves the results
untouched (a skipped pair) or inserts exactly one entry keyed by
`(order1.id, order2.id)`, with distinct ids both carrying a baseline
profit: a `Nonce` entry from the short-circuit, or the outcome
classification of the pair simulation. -/
theorem processPair_cases {P S E : Type} {env : SimEnv P S E} {pr : List (Nat × Nat)} {p : P}
    {o1 o2 : Order} {res : ConflictMap} {p' : P} {res' : ConflictMap}
    (h : processPair env pr p o1 o2 res = .ok (p', res')) :
    res' = res ∨
    (∃ v1 v2 n, alGet pr o1.id = some v1 ∧ alGet pr o2.id = some v2 ∧ o1.id ≠ o2.id ∧
      findNonceConflict (buildNonceMap o1.nonces) o2.nonces = some n ∧
      res' = alInsert res (o1.id, o2.id) (Conflict.Nonce n.address)) ∨
    (∃ v1 v2 r2, alGet pr o1.id = some v1 ∧ alGet pr o2.id = some v2 ∧ o1.id ≠ o2.id ∧
      res' = alInsert res (o1.id, o2.id) (conflictOfOutcome v2 r2)) := by
  rcases hg1 : alGet pr o1.id with _ | v1
  · rw [processPair_skip1 env pr p o1 o2 res hg1] at h
    simp only [Except.ok.injEq, Prod.mk.injEq] at h
    exact Or.inl h.2.symm
  rcases hg2 : alGet pr o2.id with _ | v2
  · rw [processPair_skip2 env pr p o1 o2 res hg2] at h
    simp only [Except.ok.injEq, Prod.mk.injEq] at h
    exact Or.inl h.2.symm
  by_cases he : o1.id = o2.id
  · rw [processPair_skip_eq env pr p o1 o2 res hg1 hg2 he] at h
    simp only [Except.ok.injEq, Prod.mk.injEq] at h
    exact Or.inl h.2.symm
  rcases hn : findNonceConflict (buildNonceMap o1.nonces) o2.nonces with _ | n
  · rcases hc1 : env.commitOrder (env.newState p) o1 0 0 with e | ⟨s1, r1⟩
    · rw [processPair_err1 env pr p o1 o2 res hg1 hg2 he hn hc1] at h
      exact absurd h (by simp)
    rcases r1 with u | r1res
    · rcases hc2 : env.commitOrder s1 o2 0 0 with e | ⟨s2, r2⟩
      · rw [processPair_err2_fail1 env pr p o1 o2 res hg1 hg2 he hn hc1 hc2] at h
        exact absurd h (by simp)
      · rw [processPair_sim_fail1 env pr p o1 o2 res hg1 hg2 he hn hc1 hc2] at h
        simp only [Except.ok.injEq, Prod.mk.injEq] at h
        exact Or.inr (Or.inr ⟨v1, v2, r2, rfl, rfl, he, h.2.symm⟩)
    · rcases hc2 : env.commitOrder s1 o2 r1res.gas_used r1res.blob_gas_used with e | ⟨s2, r2⟩
      · rw [processPair_err2_ok env pr p o1 o2 res hg1 hg2 he hn hc1 hc2] at h
        exact absurd h (by simp)
      · rw [processPair_sim_ok env pr p o1 o2 res hg1 hg2 he hn hc1 hc2] at h
        simp only [Except.ok.injEq, Prod.mk.injEq] at h
        exact Or.inr (Or.inr ⟨v1, v2, r2, rfl, rfl, he, h.2.symm⟩)
  · rw [processPair_nonce env pr p o1 o2 res hg1 hg2 he hn] at h
    simp only [Except.ok.injEq, Prod.mk.injEq] at h
    exact Or.inr (Or.inl ⟨v1, v2, n, rfl, rfl, he, rfl, h.2.symm⟩)

/-- Preservation of a results-invariant along the pair loop. -/
theorem processPairs_preserve {P S E : Type} {env : SimEnv P S E} {pr : List (Nat × Nat)}
    (Q : ConflictMap → Prop)
    (hstep : ∀ p o1 o2 res p' res',
      processPair env pr p o1 o2 res = .ok (p', res') → Q res → Q res') :
    ∀ (l : List (Order × Order)) (p : P) (res : ConflictMap) (p' : P) (res' : ConflictMap),
      processPairs env pr p l res = .ok (p', res') → Q res → Q res' := by
  intro l
  induction l with
  | nil =>
    intro p res p' res' h hq
    simp only [processPairs, Except.ok.injEq, Prod.mk.injEq] at h
    exact h.2 ▸ hq
  | cons hd tl ih =>
    intro p res p' res' h hq
    obtain ⟨q1, q2⟩ := hd
    rw [processPairs] at h
    rcases hp : processPair env pr p q1 q2 res with e | ⟨p1, res1⟩
    · rw [hp] at h; exact absurd h (by simp)
    · rw [hp] at h
      exact ih p1 res1 p' res' h (hstep p q1 q2 res p1 res1 hp hq)

/-- Unpack a successful `find_conflict_slow` run into its pair loop. -/
theorem find_processPairs {P S E : Type} {env : SimEnv P S E} {p : P} {orders : List Order}
    {q : P} {pr : List (Nat × Nat)} {M : ConflictMap}
    (hpr : computeProfitsAlone env p orders [] = .ok (q, pr))
    (hf : find_conflict_slow env p orders = .ok M) :
    ∃ p', processPairs env pr q (cartesianPairs orders) [] = .ok (p', M) := by
  unfold find_conflict_slow at hf
  rw [hpr] at hf
  dsimp only at hf
  rcases hpp : processPairs env pr q (cartesianPairs orders) [] with e | ⟨p', res⟩
  · rw [hpp] at hf; exact absurd hf (by simp)
  · rw [hpp] at hf
    simp only [Except.ok.injEq] at hf
    exact ⟨p', by rw [hf]⟩

/-! ### Invariants of the accumulated ConflictMap -/

theorem conflictOfOutcome_dp {v2 pa pw : Nat} {r2 : Except Unit SimResult} :
    conflictOfOutcome v2 r2 = Conflict.DifferentProfit pa pw → pa ≠ pw := by
  unfold conflictOfOutcome
  cases r2 with
  | error u => intro h; cases h
  | ok re =>
    dsimp only
    by_cases hv : v2 = re.coinbase_profit
    · rw [if_pos hv]; intro h; cases h
    · rw [if_neg hv]
      intro h
      cases h
      exact hv

/-- Keys of the accumulated results: distinct ids, both with a baseline
profit. -/
def keysWellFormed (pr : List (Nat × Nat)) (m : ConflictMap) : Prop :=
  ∀ a b, (alGet m (a, b)).isSome →
    a ≠ b ∧ (alGet pr a).isSome ∧ (alGet pr b).isSome

theorem keysWellFormed_insert {pr : List (Nat × Nat)} {m : ConflictMap}
    (h : keysWellFormed pr m) {i j : Nat} (hne : i ≠ j)
    (hi : (alGet pr i).isSome) (hj : (alGet pr j).isSome) (c : Conflict) :
    keysWellFormed pr (alInsert m (i, j) c) := by
  intro a b hab
  rw [alGet_alInsert] at hab
  by_cases hk : ((i, j) : Nat × Nat) = (a, b)
  · have h1 : i = a := congrArg Prod.fst hk
    have h2 : j = b := congrArg Prod.snd hk
    subst h1; subst h2
    exact ⟨hne, hi, hj⟩
  · rw [if_neg hk] at hab
    exact h a b hab

theorem processPair_keysWellFormed {P S E : Type} {env : SimEnv P S E}
    {pr : List (Nat × Nat)} {p : P} {o1 o2 : Order} {res : ConflictMap}
    {p' : P} {res' : ConflictMap}
    (h : processPair env pr p o1 o2 res = .ok (p', res'))
    (hq : keysWellFormed pr res) : keysWellFormed pr res' := by
  rcases processPair_cases h with rfl | ⟨v1, v2, n, h1, h2, hne, hn, rfl⟩ |
    ⟨v1, v2, r2, h1, h2, hne, rfl⟩
  · exact hq
  · exact keysWellFormed_insert hq hne (by rw [h1]; rfl) (by rw [h2]; rfl) _
  · exact keysWellFormed_insert hq hne (by rw [h1]; rfl) (by rw [h2]; rfl) _

/-- Soundness of `DifferentProfit` entries: the two recorded profits
differ. -/
def dpEntriesSound (m : ConflictMap) : Prop :=
  ∀ k pa pw, alGet m k = some (Conflict.DifferentProfit pa pw) → pa ≠ pw

theorem dpEntriesSound_insert {m : ConflictMap} (h : dpEntriesSound m)
    {k : Nat × Nat} {c : Conflict}
    (hc : ∀ pa pw, c = Conflict.DifferentProfit pa pw → pa ≠ pw) :
    dpEntriesSound (alInsert m k c) := by
  intro k' pa pw hk
  rw [alGet_alInsert] at hk
  by_cases he : k = k'
  · rw [if_pos he] at hk
    exact hc pa pw (Option.some.inj hk)
  · rw [if_neg he] at hk
    exact h k' pa pw hk

theorem processPair_dpSound {P S E : Type} {env : SimEnv P S E}
    {pr : List (Nat × Nat)} {p : P} {o1 o2 : Order} {res : ConflictMap}
    {p' : P} {res' : ConflictMap}
    (h : processPair env pr p o1 o2 res = .ok (p', res'))
    (hq : dpEntriesSound res) : dpEntriesSound res' := by
  rcases processPair_cases h with rfl | ⟨v1, v2, n, h1, h2, hne, hn, rfl⟩ |
    ⟨v1, v2, r2, h1, h2, hne, rfl⟩
  · exact hq
  · exact dpEntriesSound_insert hq (fun pa pw hx => Conflict.noConfusion hx)
  · exact dpEntriesSound_insert hq (fun pa pw hx => conflictOfOutcome_dp hx)

theorem processPair_keysNodup {P S E : Type} {env : SimEnv P S E}
    {pr : List (Nat × Nat)} {p : P} {o1 o2 : Order} {res : ConflictMap}
    {p' : P} {res' : ConflictMap}
    (h : processPair env pr p o1 o2 res = .ok (p', res'))
    (hq : (res.map Prod.fst).Nodup) : (res'.map Prod.fst).Nodup := by
  rcases processPair_cases h with rfl | ⟨v1, v2, n, h1, h2, hne, hn, rfl⟩ |
    ⟨v1, v2, r2, h1, h2, hne, rfl⟩
  · exact hq
  · exact keys_nodup_alInsert hq _ _
  · exact keys_nodup_alInsert hq _ _

theorem processPair_key_mono {P S E : Type} {env : SimEnv P S E}
    {pr : List (Nat × Nat)} {p : P} {o1 o2 : Order} {res : ConflictMap}
    {p' : P} {res' : ConflictMap}
    (h : processPair env pr p o1 o2 res = .ok (p', res')) (k : Nat × Nat)
    (hk : (alGet res k).isSome) : (alGet res' k).isSome := by
  rcases processPair_cases h with rfl | ⟨v1, v2, n, h1, h2, hne, hn, rfl⟩ |
    ⟨v1, v2, r2, h1, h2, hne, rfl⟩
  · exact hk
  · rw [alGet_alInsert]
    by_cases he : ((o1.id, o2.id) : Nat × Nat) = k
    · rw [if_pos he]; rfl
    · rw [if_neg he]; exact hk
  · rw [alGet_alInsert]
    by_cases he : ((o1.id, o2.id) : Nat × Nat) = k
    · rw [if_pos he]; rfl
    · rw [if_neg he]; exact hk

/-- A pair that passes all the guards always records an entry for its key
(whatever the simulation outcome, when no infrastructure error occurs). -/
theorem processPair_key_inserted {P S E : Type} {env : SimEnv P S E}
    {pr : List (Nat × Nat)} {p : P} {o1 o2 : Order} {res : ConflictMap}
    {p' : P} {res' : ConflictMap}
    (h : processPair env pr p o1 o2 res = .ok (p', res'))
    {v1 v2 : Nat} (h1 : alGet pr o1.id = some v1) (h2 : alGet pr o2.id = some v2)
    (hne : o1.id ≠ o2.id) : (alGet res' (o1.id, o2.id)).isSome := by
  rcases hn : findNonceConflict (buildNonceMap o1.nonces) o2.nonces with _ | n
  · rcases hc1 : env.commitOrder (env.newState p) o1 0 0 with e | ⟨s1, r1⟩
    · rw [processPair_err1 env pr p o1 o2 res h1 h2 hne hn hc1] at h
      exact absurd h (by simp)
    rcases r1 with u | r1res
    · rcases hc2 : env.commitOrder s1 o2 0 0 with e | ⟨s2, r2⟩
      · rw [processPair_err2_fail1 env pr p o1 o2 res h1 h2 hne hn hc1 hc2] at h
        exact absurd h (by simp)
      · rw [processPair_sim_fail1 env pr p o1 o2 res h1 h2 hne hn hc1 hc2] at h
        simp only [Except.ok.injEq, Prod.mk.injEq] at h
        rw [← h.2, alGet_alInsert_self]
        rfl
    · rcases hc2 : env.commitOrder s1 o2 r1res.gas_used r1res.blob_gas_used with e | ⟨s2, r2⟩
      · rw [processPair_err2_ok env pr p o1 o2 res h1 h2 hne hn hc1 hc2] at h
        exact absurd h (by simp)
      · rw [processPair_sim_ok env pr p o1 o2 res h1 h2 hne hn hc1 hc2] at h
        simp only [Except.ok.injEq, Prod.mk.injEq] at h
        rw [← h.2, alGet_alInsert_self]
        rfl
  · rw [processPair_nonce env pr p o1 o2 res h1 h2 hne hn] at h
    simp only [Except.ok.injEq, Prod.mk.injEq] at h
    rw [← h.2, alGet_alInsert_self]
    rfl

theorem processPairs_key_mono {P S E : Type} {env : SimEnv P S E} {pr : List (Nat × Nat)}
    {l : List (Order × Order)} {p : P} {res : ConflictMap} {p' : P} {res' : ConflictMap}
    (h : processPairs env pr p l res = .ok (p', res')) (k : Nat × Nat)
    (hk : (alGet res k).isSome) : (alGet res' k).isSome :=
  processPairs_preserve (fun m => (alGet m k).isSome)
    (fun _ _ _ _ _ _ hs hq => processPair_key_mono hs k hq) l p res p' res' h hk

theorem processPairs_key_of_mem {P S E : Type} {env : SimEnv P S E} {pr : List (Nat × Nat)} :
    ∀ (l : List (Order × Order)) (p : P) (res : ConflictMap) (p' : P) (res' : ConflictMap),
    processPairs env pr p l res = .ok (p', res') →
    ∀ q1 q2, (q1, q2) ∈ l →
    ∀ v1 v2, alGet pr q1.id = some v1 → alGet pr q2.id = some v2 → q1.id ≠ q2.id →
    (alGet res' (q1.id, q2.id)).isSome := by
  intro l
  induction l with
  | nil =>
    intro p res p' res' h q1 q2 hmem
    cases hmem
  | cons hd tl ih =>
    intro p res p' res' h q1 q2 hmem v1 v2 h1 h2 hne
    obtain ⟨a1, a2⟩ := hd
    rw [processPairs] at h
    rcases hp : processPair env pr p a1 a2 res with e | ⟨p1, res1⟩
    · rw [hp] at h; exact absurd h (by simp)
    rw [hp] at h
    rcases List.mem_cons.mp hmem with heq | hmem'
    · have ha1 : a1 = q1 := (congrArg Prod.fst heq).symm
      have ha2 : a2 = q2 := (congrArg Prod.snd heq).symm
      subst ha1; subst ha2
      exact processPairs_key_mono h _ (processPair_key_inserted hp h1 h2 hne)
    · exact ih p1 res1 p' res' h q1 q2 hmem' v1 v2 h1 h2 hne

theorem mem_cartesianPairs {orders : List Order} {q1 q2 : Order} :
    (q1, q2) ∈ cartesianPairs orders ↔ q1 ∈ orders ∧ q2 ∈ orders := by
  unfold cartesianPairs
  rw [List.mem_flatMap]
  constructor
  · rintro ⟨a, ha, hmem⟩
    rw [List.mem_map] at hmem
    obtain ⟨b, hb, heq⟩ := hmem
    have h1 : a = q1 := congrArg Prod.fst heq
    have h2 : b = q2 := congrArg Prod.snd heq
    exact ⟨h1 ▸ ha, h2 ▸ hb⟩
  · rintro ⟨h1, h2⟩
    exact ⟨q1, h1, List.mem_map.mpr ⟨q2, h2, rfl⟩⟩

/-- Ids with a recorded baseline profit are ids of input orders. -/
theorem computeProfitsAlone_mem {P S E : Type} {env : SimEnv P S E} :
    ∀ {orders : List Order} {p : P} {acc : List (Nat × Nat)} {q : P} {pr : List (Nat × Nat)},
    computeProfitsAlone env p orders acc = .ok (q, pr) →
    ∀ a, (alGet pr a).isSome → (∃ o ∈ orders, o.id = a) ∨ (alGet acc a).isSome := by
  intro orders
  induction orders with
  | nil =>
    intro p acc q pr h a ha
    simp only [computeProfitsAlone, Except.ok.injEq, Prod.mk.injEq] at h
    exact Or.inr (h.2 ▸ ha)
  | cons o rest ih =>
    intro p acc q pr h a ha
    rw [computeProfitsAlone] at h
    rcases hc : env.commitOrder (env.newState p) o 0 0 with e | ⟨s, r⟩
    · rw [hc] at h; exact absurd h (by simp)
    rw [hc] at h
    dsimp only at h
    cases r with
    | ok sres =>
      rcases ih h a ha with ⟨o', ho', hid⟩ | hacc
      · exact Or.inl ⟨o', List.mem_cons_of_mem _ ho', hid⟩
      · rw [alGet_alInsert] at hacc
        by_cases he : o.id = a
        · exact Or.inl ⟨o, List.mem_cons_self _ _, he⟩
        · rw [if_neg he] at hacc
          exact Or.inr hacc
    | error u =>
      rcases ih h a ha with ⟨o', ho', hid⟩ | hacc
      · exact Or.inl ⟨o', List.mem_cons_of_mem _ ho', hid⟩
      · exact Or.inr hacc

/-! ### Error propagation and totality -/

theorem computeProfitsAlone_error {P S E : Type} {env : SimEnv P S E} :
    ∀ {orders : List Order} {p : P} {acc : List (Nat × Nat)} {e : E},
    computeProfitsAlone env p orders acc = .error e →
    ∃ s o g b, env.commitOrder s o g b = .error e := by
  intro orders
  induction orders with
  | nil =>
    intro p acc e h
    exact absurd h (by simp [computeProfitsAlone])
  | cons o rest ih =>
    intro p acc e h
    rw [computeProfitsAlone] at h
    rcases hc : env.commitOrder (env.newState p) o 0 0 with e' | ⟨s, r⟩
    · rw [hc] at h
      simp only [Except.error.injEq] at h
      exact ⟨env.newState p, o, 0, 0, h ▸ hc⟩
    · rw [hc] at h
      exact ih h

theorem processPair_error {P S E : Type} {env : SimEnv P S E} {pr : List (Nat × Nat)}
    {p : P} {o1 o2 : Order} {res : ConflictMap} {e : E}
    (h : processPair env pr p o1 o2 res = .error e) :
    ∃ s o g b, env.commitOrder s o g b = .error e := by
  rcases hg1 : alGet pr o1.id with _ | v1
  · rw [processPair_skip1 env pr p o1 o2 res hg1] at h
    exact absurd h (by simp)
  rcases hg2 : alGet pr o2.id with _ | v2
  · rw [processPair_skip2 env pr p o1 o2 res hg2] at h
    exact absurd h (by simp)
  by_cases he : o1.id = o2.id
  · rw [processPair_skip_eq env pr p o1 o2 res hg1 hg2 he] at h
    exact absurd h (by simp)
  rcases hn : findNonceConflict (buildNonceMap o1.nonces) o2.nonces with _ | n
  · rcases hc1 : env.commitOrder (env.newState p) o1 0 0 with e' | ⟨s1, r1⟩
    · rw [processPair_err1 env pr p o1 o2 res hg1 hg2 he hn hc1] at h
      simp only [Except.error.injEq] at h
      exact ⟨env.newState p, o1, 0, 0, h ▸ hc1⟩
    rcases r1 with u | r1res
    · rcases hc2 : env.commitOrder s1 o2 0 0 with e' | ⟨s2, r2⟩
      · rw [processPair_err2_fail1 env pr p o1 o2 res hg1 hg2 he hn hc1 hc2] at h
        simp only [Except.error.injEq] at h
        exact ⟨s1, o2, 0, 0, h ▸ hc2⟩
      · rw [processPair_sim_fail1 env pr p o1 o2 res hg1 hg2 he hn hc1 hc2] at h
        exact absurd h (by simp)
    · rcases hc2 : env.commitOrder s1 o2 r1res.gas_used r1res.blob_gas_used with e' | ⟨s2, r2⟩
      · rw [processPair_err2_ok env pr p o1 o2 res hg1 hg2 he hn hc1 hc2] at h
        simp only [Except.error.injEq] at h
        exact ⟨s1, o2, r1res.gas_used, r1res.blob_gas_used, h ▸ hc2⟩
      · rw [processPair_sim_ok env pr p o1 o2 res hg1 hg2 he hn hc1 hc2] at h
        exact absurd h (by simp)
  · rw [processPair_nonce env pr p o1 o2 res hg1 hg2 he hn] at h
    exact absurd h (by simp)

theorem processPairs_error {P S E : Type} {env : SimEnv P S E} {pr : List (Nat × Nat)} :
    ∀ {l : List (Order × Order)} {p : P} {res : ConflictMap} {e : E},
    processPairs env pr p l res = .error e →
    ∃ s o g b, env.commitOrder s o g b = .error e := by
  intro l
  induction l with
  | nil =>
    intro p res e h
    exact absurd h (by simp [processPairs])
  | cons hd tl ih =>
    intro p res e h
    obtain ⟨a1, a2⟩ := hd
    rw [processPairs] at h
    rcases hp : processPair env pr p a1 a2 res with e' | ⟨p1, res1⟩
    · rw [hp] at h
      simp only [Except.error.injEq] at h
      exact processPair_error (h ▸ hp)
    · rw [hp] at h
      exact ih h

theorem computeProfitsAlone_total {P S E : Type} {env : SimEnv P S E}
    (hok : ∀ s o g b, ∃ s' r, env.commitOrder s o g b = .ok (s', r)) :
    ∀ (orders : List Order) (p : P) (acc : List (Nat × Nat)),
    ∃ q pr, computeProfitsAlone env p orders acc = .ok (q, pr) := by
  intro orders
  induction orders with
  | nil => intro p acc; exact ⟨p, acc, rfl⟩
  | cons o rest ih =>
    intro p acc
    obtain ⟨s', r, hc⟩ := hok (env.newState p) o 0 0
    rw [computeProfitsAlone, hc]
    cases r with
    | ok sres => exact ih (env.intoProvider s') (alInsert acc o.id sres.coinbase_profit)
    | error u => exact ih (env.intoProvider s') acc

theorem processPair_total {P S E : Type} {env : SimEnv P S E} {pr : List (Nat × Nat)}
    (hok : ∀ s o g b, ∃ s' r, env.commitOrder s o g b = .ok (s', r))
    (p : P) (o1 o2 : Order) (res : ConflictMap) :
    ∃ p' res', processPair env pr p o1 o2 res = .ok (p', res') := by
  rcases hg1 : alGet pr o1.id with _ | v1
  · exact ⟨p, res, processPair_skip1 env pr p o1 o2 res hg1⟩
  rcases hg2 : alGet pr o2.id with _ | v2
  · exact ⟨p, res, processPair_skip2 env pr p o1 o2 res hg2⟩
  by_cases he : o1.id = o2.id
  · exact ⟨p, res, processPair_skip_eq env pr p o1 o2 res hg1 hg2 he⟩
  rcases hn : findNonceConflict (buildNonceMap o1.nonces) o2.nonces with _ | n
  · obtain ⟨s1, r1, hc1⟩ := hok (env.newState p) o1 0 0
    rcases r1 with u | r1res
    · obtain ⟨s2, r2, hc2⟩ := hok s1 o2 0 0
      exact ⟨_, _, processPair_sim_fail1 env pr p o1 o2 res hg1 hg2 he hn hc1 hc2⟩
    · obtain ⟨s2, r2, hc2⟩ := hok s1 o2 r1res.gas_used r1res.blob_gas_used
      exact ⟨_, _, processPair_sim_ok env pr p o1 o2 res hg1 hg2 he hn hc1 hc2⟩
  · exact ⟨_, _, processPair_nonce env pr p o1 o2 res hg1 hg2 he hn⟩

theorem processPairs_total {P S E : Type} {env : SimEnv P S E} {pr : List (Nat × Nat)}
    (hok : ∀ s o g b, ∃ s' r, env.commitOrder s o g b = .ok (s', r)) :
    ∀ (l : List (Order × Order)) (p : P) (res : ConflictMap),
    ∃ p' res', processPairs env pr p l res = .ok (p', res') := by
  intro l
  induction l with
  | nil => intro p res; exact ⟨p, res, rfl⟩
  | cons hd tl ih =>
    intro p res
    obtain ⟨a1, a2⟩ := hd
    obtain ⟨p1, res1, hp⟩ := processPair_total hok p a1 a2 res
    obtain ⟨p', res', hrest⟩ := ih p1 res1
    refine ⟨p', res', ?_⟩
    rw [processPairs, hp]
    exact hrest

/-! ### Concrete instances used by witnesses and counterexamples -/

/-- An environment in which every commit succeeds with zero profit and
zero gas. -/
def envAllOk : SimEnv Unit Unit Unit :=
  { newState := fun _ => ()
    commitOrder := fun _ _ _ _ => .ok ((), .ok ⟨0, 0, 0⟩)
    intoProvider := fun _ => () }

/-- An environment in which every commit fails with infrastructure
error `7`. -/
def envInfraErr : SimEnv Unit Unit Nat :=
  { newState := fun _ => ()
    commitOrder := fun _ _ _ _ => .error 7
    intoProvider := fun _ => () }

/-- An environment (with a counter as provider handle) in which commits
performed from the third fork onwards yield profit `30` instead of the
baseline `50`. -/
def envDP : SimEnv Nat Nat Unit :=
  { newState := fun p => p
    commitOrder := fun s _ _ _ => .ok (s + 1, .ok ⟨if 2 ≤ s then 30 else 50, 0, 0⟩)
    intoProvider := fun s => s }

def ordA : Order := ⟨1, [⟨7, false⟩]⟩

def ordB : Order := ⟨2, [⟨7, false⟩]⟩

def ord1 : Order := ⟨1, []⟩

def ord2 : Order := ⟨2, []⟩

/-! ### Claim theorems -/

/-- C5: every key `(a, b)` of the ConflictMap returned by
`find_conflict_slow` satisfies `a ≠ b`, and both `a` and `b` carry a
recorded baseline profit; in particular an order with no baseline profit
(one that failed when simulated alone) appears in no key. -/
theorem claim_C5_domain {P S E : Type} {env : SimEnv P S E} {p : P} {orders : List Order}
    {q : P} {pr : List (Nat × Nat)} {M : ConflictMap}
    (hpr : computeProfitsAlone env p orders [] = .ok (q, pr))
    (hf : find_conflict_slow env p orders = .ok M) :
    ∀ a b, (alGet M (a, b)).isSome →
      a ≠ b ∧ (alGet pr a).isSome ∧ (alGet pr b).isSome := by
  obtain ⟨p', hpp⟩ := find_processPairs hpr hf
  exact processPairs_preserve (keysWellFormed pr)
    (fun _ _ _ _ _ _ hs hq => processPair_keysWellFormed hs hq)
    _ _ _ _ _ hpp
    (fun a b hab => absurd hab (by rw [alGet_nil]; intro hc; cases hc))

theorem claim_C5_witness :
    (1 : Nat) ≠ 2 ∧ (alGet [((2 : Nat), (0 : Nat)), (1, 0)] 1).isSome ∧
      (alGet [((2 : Nat), (0 : Nat)), (1, 0)] 2).isSome :=
  @claim_C5_domain Unit Unit Unit envAllOk () [ordA, ordB] () [(2, 0), (1, 0)]
    [((2, 1), Conflict.Nonce 7), ((1, 2), Conflict.Nonce 7)] rfl rfl 1 2 rfl

/-- C4: every `DifferentProfit` entry of a returned ConflictMap carries
two distinct profits, and when the pair simulation succeeds for the second
order the recorded classification compares its in-context coinbase profit
with its baseline by exact equality — equality gives `NoConflict`, any
difference gives `DifferentProfit` carrying the baseline and in-context
profits. -/
theorem claim_C4_profit_comparison :
    (∀ (P S E : Type) (env : SimEnv P S E) (p : P) (orders : List Order) (M : ConflictMap),
      find_conflict_slow env p orders = .ok M →
      ∀ a b pa pw, alGet M (a, b) = some (Conflict.DifferentProfit pa pw) → pa ≠ pw) ∧
    (∀ (P S E : Type) (env : SimEnv P S E) (pr : List (Nat × Nat)) (p : P)
      (o1 o2 : Order) (res : ConflictMap) (v1 v2 : Nat) (s1 s2 : S)
      (r1res re : SimResult),
      alGet pr o1.id = some v1 → alGet pr o2.id = some v2 → o1.id ≠ o2.id →
      findNonceConflict (buildNonceMap o1.nonces) o2.nonces = none →
      env.commitOrder (env.newState p) o1 0 0 = .ok (s1, .ok r1res) →
      env.commitOrder s1 o2 r1res.gas_used r1res.blob_gas_used = .ok (s2, .ok re) →
      processPair env pr p o1 o2 res = .ok (env.intoProvider s2,
        alInsert res (o1.id, o2.id)
          (if v2 = re.coinbase_profit then Conflict.NoConflict
           else Conflict.DifferentProfit v2 re.coinbase_profit))) := by
  constructor
  · intro P S E env p orders M hf a b pa pw hab
    rcases hcp : computeProfitsAlone env p orders [] with e | ⟨q, pr⟩
    · unfold find_conflict_slow at hf
      rw [hcp] at hf
      exact absurd hf (by simp)
    obtain ⟨p', hpp⟩ := find_processPairs hcp hf
    exact processPairs_preserve dpEntriesSound
      (fun _ _ _ _ _ _ hs hq => processPair_dpSound hs hq)
      _ _ _ _ _ hpp
      (fun k pa' pw' hk => absurd hk (by rw [alGet_nil]; intro hc; cases hc))
      (a, b) pa pw hab
  · intro P S E env pr p o1 o2 res v1 v2 s1 s2 r1res re h1 h2 hne hn hc1 hc2
    exact processPair_sim_ok env pr p o1 o2 res h1 h2 hne hn hc1 hc2

theorem claim_C4_witness :
    ((50 : Nat) ≠ 30) ∧
    processPair envAllOk [((1 : Nat), (0 : Nat)), (2, 0)] () ord1 ord2 [] =
      .ok ((), [((1, 2), Conflict.NoConflict)]) :=
  ⟨claim_C4_profit_comparison.1 Nat Nat Unit envDP 0 [ord1, ord2]
      [((2, 1), Conflict.DifferentProfit 50 30), ((1, 2), Conflict.DifferentProfit 50 30)]
      rfl 1 2 50 30 rfl,
    claim_C4_profit_comparison.2 Unit Unit Unit envAllOk [(1, 0), (2, 0)] () ord1 ord2 []
      0 0 () () ⟨0, 0, 0⟩ ⟨0, 0, 0⟩ rfl rfl (by decide) rfl rfl rfl⟩

/-- C6: an infrastructure error returned by `find_conflict_slow` is always
one produced by a commit of the underlying simulation infrastructure (and
no map is produced alongside it), while order-level failures alone never
make `find_conflict_slow` fail: if every commit returns without
infrastructure error, the analysis returns a ConflictMap. -/
theorem claim_C6_error_policy :
    (∀ (P S E : Type) (env : SimEnv P S E) (p : P) (orders : List Order) (e : E),
      find_conflict_slow env p orders = .error e →
      ∃ s o g b, env.commitOrder s o g b = .error e) ∧
    (∀ (P S E : Type) (env : SimEnv P S E) (p : P) (orders : List Order),
      (∀ s o g b, ∃ s' r, env.commitOrder s o g b = .ok (s', r)) →
      ∃ M, find_conflict_slow env p orders = .ok M) := by
  constructor
  · intro P S E env p orders e hf
    unfold find_conflict_slow at hf
    rcases hcp : computeProfitsAlone env p orders [] with e' | ⟨q, pr⟩
    · rw [hcp] at hf
      simp only [Except.error.injEq] at hf
      exact computeProfitsAlone_error (hf ▸ hcp)
    rw [hcp] at hf
    dsimp only at hf
    rcases hpp : processPairs env pr q (cartesianPairs orders) [] with e' | ⟨p', res⟩
    · rw [hpp] at hf
      simp only [Except.error.injEq] at hf
      exact processPairs_error (hf ▸ hpp)
    · rw [hpp] at hf
      exact absurd hf (by simp)
  · intro P S E env p orders hok
    obtain ⟨q, pr, hcp⟩ := computeProfitsAlone_total hok orders p []
    obtain ⟨p', res, hpp⟩ := processPairs_total hok (cartesianPairs orders) q []
    refine ⟨res, ?_⟩
    unfold find_conflict_slow
    rw [hcp]
    dsimp only
    rw [hpp]

theorem claim_C6_witness :
    (∃ s o g b, envInfraErr.commitOrder s o g b = .error 7) ∧
    (∃ M, find_conflict_slow envAllOk () [ord1] = .ok M) :=
  ⟨claim_C6_error_policy.1 Unit Unit Nat envInfraErr () [ord1] 7 rfl,
    claim_C6_error_policy.2 Unit Unit Unit envAllOk () [ord1]
      (fun _ _ _ _ => ⟨(), .ok ⟨0, 0, 0⟩, rfl⟩)⟩

/-- C10: the key set of a returned ConflictMap is exactly the set of
ordered pairs of distinct ids of input orders that both carry a baseline
profit, with exactly one entry per key (the key list has no duplicates). -/
theorem claim_C10_key_set {P S E : Type} {env : SimEnv P S E} {p : P} {orders : List Order}
    {q : P} {pr : List (Nat × Nat)} {M : ConflictMap}
    (hpr : computeProfitsAlone env p orders [] = .ok (q, pr))
    (hf : find_conflict_slow env p orders = .ok M) :
    (∀ a b, (alGet M (a, b)).isSome ↔
      (a ≠ b ∧ (∃ o1 ∈ orders, o1.id = a) ∧ (∃ o2 ∈ orders, o2.id = b) ∧
        (alGet pr a).isSome ∧ (alGet pr b).isSome)) ∧
    (M.map Prod.fst).Nodup := by
  obtain ⟨p', hpp⟩ := find_processPairs hpr hf
  constructor
  · intro a b
    constructor
    · intro hab
      have hwf := processPairs_preserve (keysWellFormed pr)
        (fun _ _ _ _ _ _ hs hq => processPair_keysWellFormed hs hq)
        _ _ _ _ _ hpp
        (fun a' b' hab' => absurd hab' (by rw [alGet_nil]; intro hc; cases hc))
        a b hab
      obtain ⟨hne, ha, hb⟩ := hwf
      rcases computeProfitsAlone_mem hpr a ha with hoa | hacc
      · rcases computeProfitsAlone_mem hpr b hb with hob | hacc
        · exact ⟨hne, hoa, hob, ha, hb⟩
        · rw [alGet_nil] at hacc; cases hacc
      · rw [alGet_nil] at hacc; cases hacc
    · rintro ⟨hne, ⟨o1, ho1, rfl⟩, ⟨o2, ho2, rfl⟩, ha, hb⟩
      obtain ⟨v1, hv1⟩ := Option.isSome_iff_exists.mp ha
      obtain ⟨v2, hv2⟩ := Option.isSome_iff_exists.mp hb
      exact processPairs_key_of_mem _ _ _ _ _ hpp o1 o2
        (mem_cartesianPairs.mpr ⟨ho1, ho2⟩) v1 v2 hv1 hv2 hne
  · exact processPairs_preserve (fun m => (m.map Prod.fst).Nodup)
      (fun _ _ _ _ _ _ hs hq => processPair_keysNodup hs hq)
      _ _ _ _ _ hpp List.nodup_nil

theorem claim_C10_witness :
    (alGet [(((2 : Nat), (1 : Nat)), Conflict.Nonce 7), ((1, 2), Conflict.Nonce 7)]
      (1, 2)).isSome ∧
    ¬ (alGet [(((2 : Nat), (1 : Nat)), Conflict.Nonce 7), ((1, 2), Conflict.Nonce 7)]
      (1, 1)).isSome := by
  have h := @claim_C10_key_set Unit Unit Unit envAllOk () [ordA, ordB] () [(2, 0), (1, 0)]
    [((2, 1), Conflict.Nonce 7), ((1, 2), Conflict.Nonce 7)] rfl rfl
  constructor
  · exact (h.1 1 2).mpr ⟨by decide, ⟨ordA, List.mem_cons_self _ _, rfl⟩,
      ⟨ordB, List.mem_cons_of_mem _ (List.mem_cons_self _ _), rfl⟩, rfl, rfl⟩
  · intro hc
    exact ((h.1 1 1).mp hc).1 rfl

/-! ### Tracking the value recorded for a fixed pair key -/

theorem processPair_key_untouched {P S E : Type} {env : SimEnv P S E}
    {pr : List (Nat × Nat)} {p : P} {q1 q2 : Order} {res : ConflictMap}
    {p' : P} {res' : ConflictMap}
    (h : processPair env pr p q1 q2 res = .ok (p', res')) {a b : Nat}
    (hne : ¬(q1.id = a ∧ q2.id = b)) : alGet res' (a, b) = alGet res (a, b) := by
  rcases processPair_cases h with rfl | ⟨v1, v2, n, h1, h2, hx, hn, rfl⟩ |
    ⟨v1, v2, r2, h1, h2, hx, rfl⟩
  · rfl
  · exact alGet_alInsert_ne res _
      (fun hc => hne ⟨congrArg Prod.fst hc, congrArg Prod.snd hc⟩)
  · exact alGet_alInsert_ne res _
      (fun hc => hne ⟨congrArg Prod.fst hc, congrArg Prod.snd hc⟩)

theorem processPairs_nonce_preserved {P S E : Type} {env : SimEnv P S E}
    {pr : List (Nat × Nat)} {a b addr va vb : Nat}
    (hva : alGet pr a = some va) (hvb : alGet pr b = some vb) (hab : a ≠ b) :
    ∀ (l : List (Order × Order)) (p : P) (res : ConflictMap) (p' : P) (res' : ConflictMap),
    processPairs env pr p l res = .ok (p', res') →
    (∀ q1 q2, (q1, q2) ∈ l → q1.id = a → q2.id = b →
      ∃ n, findNonceConflict (buildNonceMap q1.nonces) q2.nonces = some n ∧
        n.address = addr) →
    alGet res (a, b) = some (Conflict.Nonce addr) →
    alGet res' (a, b) = some (Conflict.Nonce addr) := by
  intro l
  induction l with
  | nil =>
    intro p res p' res' h hl hres
    simp only [processPairs, Except.ok.injEq, Prod.mk.injEq] at h
    exact h.2 ▸ hres
  | cons hd tl ih =>
    intro p res p' res' h hl hres
    obtain ⟨x1, x2⟩ := hd
    rw [processPairs] at h
    rcases hp : processPair env pr p x1 x2 res with e | ⟨p1, res1⟩
    · rw [hp] at h; exact absurd h (by simp)
    rw [hp] at h
    by_cases hid : x1.id = a ∧ x2.id = b
    · obtain ⟨n, hfn, haddr⟩ := hl x1 x2 (List.mem_cons_self _ _) hid.1 hid.2
      have hga : alGet pr x1.id = some va := by rw [hid.1]; exact hva
      have hgb : alGet pr x2.id = some vb := by rw [hid.2]; exact hvb
      have hne' : x1.id ≠ x2.id := by rw [hid.1, hid.2]; exact hab
      rw [processPair_nonce env pr p x1 x2 res hga hgb hne' hfn] at hp
      simp only [Except.ok.injEq, Prod.mk.injEq] at hp
      have hres1 : alGet res1 (a, b) = some (Conflict.Nonce addr) := by
        rw [← hp.2, ← hid.1, ← hid.2, alGet_alInsert_self, haddr]
      exact ih p1 res1 p' res' h
        (fun y1 y2 hy => hl y1 y2 (List.mem_cons_of_mem _ hy)) hres1
    · have hres1 : alGet res1 (a, b) = some (Conflict.Nonce addr) := by
        rw [processPair_key_untouched hp hid]
        exact hres
      exact ih p1 res1 p' res' h
        (fun y1 y2 hy => hl y1 y2 (List.mem_cons_of_mem _ hy)) hres1

theorem processPairs_nonce_recorded {P S E : Type} {env : SimEnv P S E}
    {pr : List (Nat × Nat)} {a b addr va vb : Nat}
    (hva : alGet pr a = some va) (hvb : alGet pr b = some vb) (hab : a ≠ b) :
    ∀ (l : List (Order × Order)) (p : P) (res : ConflictMap) (p' : P) (res' : ConflictMap),
    processPairs env pr p l res = .ok (p', res') →
    (∀ q1 q2, (q1, q2) ∈ l → q1.id = a → q2.id = b →
      ∃ n, findNonceConflict (buildNonceMap q1.nonces) q2.nonces = some n ∧
        n.address = addr) →
    (∃ q1 q2, (q1, q2) ∈ l ∧ q1.id = a ∧ q2.id = b) →
    alGet res' (a, b) = some (Conflict.Nonce addr) := by
  intro l
  induction l with
  | nil =>
    intro p res p' res' h hl he
    obtain ⟨q1, q2, hmem, _, _⟩ := he
    cases hmem
  | cons hd tl ih =>
    intro p res p' res' h hl he
    obtain ⟨x1, x2⟩ := hd
    rw [processPairs] at h
    rcases hp : processPair env pr p x1 x2 res with e | ⟨p1, res1⟩
    · rw [hp] at h; exact absurd h (by simp)
    rw [hp] at h
    by_cases hid : x1.id = a ∧ x2.id = b
    · obtain ⟨n, hfn, haddr⟩ := hl x1 x2 (List.mem_cons_self _ _) hid.1 hid.2
      have hga : alGet pr x1.id = some va := by rw [hid.1]; exact hva
      have hgb : alGet pr x2.id = some vb := by rw [hid.2]; exact hvb
      have hne' : x1.id ≠ x2.id := by rw [hid.1, hid.2]; exact hab
      rw [processPair_nonce env pr p x1 x2 res hga hgb hne' hfn] at hp
      simp only [Except.ok.injEq, Prod.mk.injEq] at hp
      have hres1 : alGet res1 (a, b) = some (Conflict.Nonce addr) := by
        rw [← hp.2, ← hid.1, ← hid.2, alGet_alInsert_self, haddr]
      exact processPairs_nonce_preserved hva hvb hab tl p1 res1 p' res' h
        (fun y1 y2 hy => hl y1 y2 (List.mem_cons_of_mem _ hy)) hres1
    · obtain ⟨q1, q2, hmem, hq1, hq2⟩ := he
      rcases List.mem_cons.mp hmem with heq | hmem'
      · exfalso
        have hx1 : q1 = x1 := congrArg Prod.fst heq
        have hx2 : q2 = x2 := congrArg Prod.snd heq
        exact hid ⟨hx1 ▸ hq1, hx2 ▸ hq2⟩
      · exact ih p1 res1 p' res' h
          (fun y1 y2 hy => hl y1 y2 (List.mem_cons_of_mem _ hy)) ⟨q1, q2, hmem', hq1, hq2⟩

/-- Among orders with pairwise-distinct ids, an id determines the order. -/
theorem id_inj_of_nodup {orders : List Order} :
    (orders.map Order.id).Nodup →
    ∀ {o o' : Order}, o ∈ orders → o' ∈ orders → o.id = o'.id → o = o' := by
  induction orders with
  | nil => intro h o o' ho; cases ho
  | cons x rest ih =>
    intro h o o' ho ho' hid
    rw [List.map_cons, List.nodup_cons] at h
    rcases List.mem_cons.mp ho with rfl | hom
    · rcases List.mem_cons.mp ho' with rfl | hom'
      · rfl
      · exact absurd (hid ▸ List.mem_map_of_mem Order.id hom') h.1
    · rcases List.mem_cons.mp ho' with rfl | hom'
      · exact absurd (hid ▸ List.mem_map_of_mem Order.id hom) h.1
      · exact ih h.2 hom hom' hid

/-- An environment (with a counter as provider handle) in which order id 1
succeeds when committed on the first two forks (the baseline runs) but
fails at order level on any later fork (the pair runs), while every other
order always succeeds with zero profit. -/
def envC3 : SimEnv Nat Nat Unit :=
  { newState := fun p => p
    commitOrder := fun s o _ _ =>
      if o.id = 1 ∧ 2 ≤ s then .ok (s + 1, .error ()) else .ok (s + 1, .ok ⟨0, 0, 0⟩)
    intoProvider := fun s => s }

/-- C1 (counterexample): orders `a = ⟨1, [(5, non-optional), (5, optional)]⟩`
and `b = ⟨2, [(5, non-optional)]⟩` both declare a non-optional nonce
dependency on address 5 and both have a recorded baseline profit, yet the
entry for `(a, b)` is `NoConflict`, not `Nonce 5`: building `nonce_map`
keeps only `a`'s *last* declaration per address, which here is optional,
so the pair is simulated instead. -/
theorem claim_C1_counterexample :
    (Nonce.mk 5 false ∈ (Order.mk 1 [⟨5, false⟩, ⟨5, true⟩]).nonces ∧
      Nonce.mk 5 false ∈ (Order.mk 2 [⟨5, false⟩]).nonces) ∧
    computeProfitsAlone envAllOk ()
      [⟨1, [⟨5, false⟩, ⟨5, true⟩]⟩, ⟨2, [⟨5, false⟩]⟩] [] = .ok ((), [(2, 0), (1, 0)]) ∧
    find_conflict_slow envAllOk () [⟨1, [⟨5, false⟩, ⟨5, true⟩]⟩, ⟨2, [⟨5, false⟩]⟩] =
      .ok [((2, 1), Conflict.Nonce 5), ((1, 2), Conflict.NoConflict)] ∧
    alGet [(((2 : Nat), (1 : Nat)), Conflict.Nonce 5), ((1, 2), Conflict.NoConflict)]
      (1, 2) = some Conflict.NoConflict :=
  ⟨⟨by decide, by decide⟩, rfl, rfl, rfl⟩

/-- C1 (amended): for orders with pairwise-distinct ids, if some
dependency of `b` collides with `a`'s declarations — meaning `b`'s
declaration and `a`'s *last* declaration for that address are both
non-optional — then, taking the first such dependency `n` in `b`'s list,
the ConflictMap entry for `(a, b)` is exactly `Nonce n.address`,
regardless of what simulation would have produced (any environment). -/
theorem claim_C1_nonce_rule {P S E : Type} {env : SimEnv P S E} {p : P} {orders : List Order}
    {q : P} {pr : List (Nat × Nat)} {M : ConflictMap} {o1 o2 : Order} {n : Nonce}
    (hids : (orders.map Order.id).Nodup)
    (ho1 : o1 ∈ orders) (ho2 : o2 ∈ orders) (hne : o1.id ≠ o2.id)
    (hpr : computeProfitsAlone env p orders [] = .ok (q, pr))
    (h1 : (alGet pr o1.id).isSome) (h2 : (alGet pr o2.id).isSome)
    (hf : find_conflict_slow env p orders = .ok M)
    (hn : o2.nonces.find? (nonceCollides o1.nonces) = some n) :
    alGet M (o1.id, o2.id) = some (Conflict.Nonce n.address) := by
  obtain ⟨p', hpp⟩ := find_processPairs hpr hf
  obtain ⟨v1, hv1⟩ := Option.isSome_iff_exists.mp h1
  obtain ⟨v2, hv2⟩ := Option.isSome_iff_exists.mp h2
  have hfn : findNonceConflict (buildNonceMap o1.nonces) o2.nonces = some n := by
    rw [findNonceConflict_eq]; exact hn
  refine processPairs_nonce_recorded hv1 hv2 hne _ _ _ _ _ hpp ?_
    ⟨o1, o2, mem_cartesianPairs.mpr ⟨ho1, ho2⟩, rfl, rfl⟩
  intro q1 q2 hmem hq1 hq2
  have hx1 : q1 = o1 := id_inj_of_nodup hids (mem_cartesianPairs.mp hmem).1 ho1 hq1
  have hx2 : q2 = o2 := id_inj_of_nodup hids (mem_cartesianPairs.mp hmem).2 ho2 hq2
  subst hx1; subst hx2
  exact ⟨n, hfn, rfl⟩

theorem claim_C1_witness :
    alGet [(((2 : Nat), (1 : Nat)), Conflict.Nonce 7), ((1, 2), Conflict.Nonce 7)] (1, 2) =
      some (Conflict.Nonce 7) :=
  @claim_C1_nonce_rule Unit Unit Unit envAllOk () [ordA, ordB] () [(2, 0), (1, 0)]
    [((2, 1), Conflict.Nonce 7), ((1, 2), Conflict.Nonce 7)] ordA ordB ⟨7, false⟩
    (by decide) (List.mem_cons_self _ _) (List.mem_cons_of_mem _ (List.mem_cons_self _ _))
    (by decide) rfl rfl rfl rfl rfl

/-- C2 (counterexample): `order1 = ⟨1, [(5, non-optional)]⟩` and
`order2 = ⟨2, [(5, optional)]⟩` share address 5 and at least one of the two
declarations (order1's) is non-optional, yet no `Nonce` entry is recorded:
the source requires *both* declarations to be non-optional
(`!(nonce.optional || nonce_map.optional)`), so the pair is simulated and
classified `NoConflict`. -/
theorem claim_C2_counterexample :
    (Nonce.mk 5 false ∈ (Order.mk 1 [⟨5, false⟩]).nonces ∧
      Nonce.mk 5 true ∈ (Order.mk 2 [⟨5, true⟩]).nonces) ∧
    find_conflict_slow envAllOk () [⟨1, [⟨5, false⟩]⟩, ⟨2, [⟨5, true⟩]⟩] =
      .ok [((2, 1), Conflict.NoConflict), ((1, 2), Conflict.NoConflict)] ∧
    alGet [(((2 : Nat), (1 : Nat)), Conflict.NoConflict), ((1, 2), Conflict.NoConflict)]
      (1, 2) = some Conflict.NoConflict :=
  ⟨⟨by decide, by decide⟩, rfl, rfl⟩

/-- C2 (amended): if `order2` declares a dependency that collides with
`order1`'s declarations — *both* `order2`'s declaration and `order1`'s
last declaration for that address non-optional — then (taking the first
such dependency `n` of `order2`) the pair step records exactly
`Nonce n.address` and performs no simulation: for every environment the
result is the same and the provider handle is returned unchanged. -/
theorem claim_C2_nonce_shortcircuit {P S E : Type} (env : SimEnv P S E)
    (pr : List (Nat × Nat)) (p : P) (o1 o2 : Order) (res : ConflictMap)
    {v1 v2 : Nat} {n : Nonce}
    (h1 : alGet pr o1.id = some v1) (h2 : alGet pr o2.id = some v2)
    (hne : o1.id ≠ o2.id)
    (hn : o2.nonces.find? (nonceCollides o1.nonces) = some n) :
    processPair env pr p o1 o2 res =
      .ok (p, alInsert res (o1.id, o2.id) (Conflict.Nonce n.address)) := by
  refine processPair_nonce env pr p o1 o2 res h1 h2 hne ?_
  rw [findNonceConflict_eq]
  exact hn

theorem claim_C2_witness :
    processPair envAllOk [((1 : Nat), (0 : Nat)), (2, 0)] () ordA ordB [] =
      .ok ((), [((1, 2), Conflict.Nonce 7)]) :=
  claim_C2_nonce_shortcircuit envAllOk [(1, 0), (2, 0)] () ordA ordB []
    rfl rfl (by decide) rfl

/-- C3 (counterexample): in `envC3`, order 1 succeeds when simulated alone
(both baselines succeed, with profit 0) but fails at order level when the
pair `(1, 2)` is simulated (the pair's fork starts from provider value 2);
the nonce short-circuit does not apply, so the pair reaches simulation.
`Fatal` is recorded, but order 2 then succeeds on the same fork with its
baseline profit, and the profit-comparison entry *overwrites* `Fatal`: the
final entry for `(1, 2)` is `NoConflict`, contradicting the claim. -/
theorem claim_C3_counterexample :
    envC3.commitOrder (envC3.newState 0) ord1 0 0 = .ok (1, .ok ⟨0, 0, 0⟩) ∧
    computeProfitsAlone envC3 0 [ord1, ord2] [] = .ok (2, [(2, 0), (1, 0)]) ∧
    findNonceConflict (buildNonceMap ord1.nonces) ord2.nonces = none ∧
    envC3.commitOrder (envC3.newState 2) ord1 0 0 = .ok (3, .error ()) ∧
    processPair envC3 [(2, 0), (1, 0)] 2 ord1 ord2 [] =
      .ok (4, [((1, 2), Conflict.NoConflict)]) ∧
    find_conflict_slow envC3 0 [ord1, ord2] =
      .ok [((2, 1), Conflict.Fatal), ((1, 2), Conflict.NoConflict)] ∧
    alGet [(((2 : Nat), (1 : Nat)), Conflict.Fatal), ((1, 2), Conflict.NoConflict)]
      (1, 2) = some Conflict.NoConflict :=
  ⟨rfl, rfl, rfl, rfl, rfl, rfl, rfl⟩

/-- C3 (amended): when a pair reaches simulation and `order1` fails at
order level in the pair context, `Fatal` is recorded and `order2` is still
committed on the same fork with zero accumulated gas; but if `order2`
succeeds, the profit-comparison classification overwrites `Fatal`, so the
final entry for the pair is `conflictOfOutcome` of `order2`'s result —
`Fatal` exactly when `order2` also fails at order level. -/
theorem claim_C3_fatal_overwrite {P S E : Type} (env : SimEnv P S E)
    (pr : List (Nat × Nat)) (p : P) (o1 o2 : Order) (res : ConflictMap)
    {v1 v2 : Nat} {s1 s2 : S} {r2 : Except Unit SimResult}
    (h1 : alGet pr o1.id = some v1) (h2 : alGet pr o2.id = some v2)
    (hne : o1.id ≠ o2.id)
    (hn : findNonceConflict (buildNonceMap o1.nonces) o2.nonces = none)
    (hc1 : env.commitOrder (env.newState p) o1 0 0 = .ok (s1, .error ()))
    (hc2 : env.commitOrder s1 o2 0 0 = .ok (s2, r2)) :
    processPair env pr p o1 o2 res = .ok (env.intoProvider s2,
      alInsert res (o1.id, o2.id) (conflictOfOutcome v2 r2)) ∧
    (conflictOfOutcome v2 r2 = Conflict.Fatal ↔ r2 = .error ()) := by
  refine ⟨processPair_sim_fail1 env pr p o1 o2 res h1 h2 hne hn hc1 hc2, ?_⟩
  cases r2 with
  | error u =>
    cases u
    exact ⟨fun _ => rfl, fun _ => rfl⟩
  | ok re =>
    constructor
    · intro hx
      unfold conflictOfOutcome at hx
      dsimp only at hx
      by_cases hv : v2 = re.coinbase_profit
      · rw [if_pos hv] at hx; cases hx
      · rw [if_neg hv] at hx; cases hx
    · intro hx; cases hx

theorem claim_C3_witness :
    (processPair envC3 [((2 : Nat), (0 : Nat)), (1, 0)] 2 ord1 ord2 [] =
      .ok (4, alInsert [] (ord1.id, ord2.id) (conflictOfOutcome 0 (.ok ⟨0, 0, 0⟩))) ∧
      (conflictOfOutcome 0 (Except.ok (SimResult.mk 0 0 0)) = Conflict.Fatal ↔
        (Except.ok (SimResult.mk 0 0 0) : Except Unit SimResult) = .error ())) :=
  claim_C3_fatal_overwrite envC3 [(2, 0), (1, 0)] 2 ord1 ord2 []
    rfl rfl (by decide) rfl rfl rfl

/-! ### More association-list lemmas (for the clustering arena) -/

theorem mem_alRemove {α β : Type} [DecidableEq α] {l : List (α × β)} {k : α} {p : α × β} :
    p ∈ alRemove l k ↔ p ∈ l ∧ p.1 ≠ k := by
  rw [alRemove, List.mem_filter]
  constructor
  · rintro ⟨hm, hd⟩
    exact ⟨hm, of_decide_eq_true hd⟩
  · rintro ⟨hm, hd⟩
    exact ⟨hm, decide_eq_true hd⟩

theorem mem_alInsert {α β : Type} [DecidableEq α] {l : List (α × β)} {k : α} {v : β}
    {p : α × β} : p ∈ alInsert l k v ↔ p = (k, v) ∨ (p ∈ l ∧ p.1 ≠ k) := by
  rw [alInsert, List.mem_cons, mem_alRemove]

theorem keys_nodup_alRemove {α β : Type} [DecidableEq α] {l : List (α × β)}
    (h : (l.map Prod.fst).Nodup) (k : α) : ((alRemove l k).map Prod.fst).Nodup :=
  List.Nodup.sublist ((List.filter_sublist l).map Prod.fst) h

theorem alGet_eq_of_mem_nodup {α β : Type} [DecidableEq α] {l : List (α × β)}
    (h : (l.map Prod.fst).Nodup) {k : α} {v : β} (hm : (k, v) ∈ l) :
    alGet l k = some v := by
  induction l with
  | nil => cases hm
  | cons q rest ih =>
    obtain ⟨a, b⟩ := q
    rw [List.map_cons, List.nodup_cons] at h
    rcases List.mem_cons.mp hm with heq | hm'
    · have h1 : a = k := (congrArg Prod.fst heq).symm
      have h2 : b = v := (congrArg Prod.snd heq).symm
      rw [alGet_cons, if_pos h1, h2]
    · rw [alGet_cons]
      have hak : a ≠ k := by
        intro hc
        refine h.1 ?_
        rw [hc]
        exact List.mem_map.mpr ⟨(k, v), hm', rfl⟩
      rw [if_neg hak]
      exact ih h.2 hm'

theorem value_eq_of_mem_nodup {α β : Type} [DecidableEq α] {l : List (α × β)}
    (h : (l.map Prod.fst).Nodup) {k : α} {v w : β} (hv : (k, v) ∈ l) (hw : (k, w) ∈ l) :
    v = w := by
  have h1 := alGet_eq_of_mem_nodup h hv
  have h2 := alGet_eq_of_mem_nodup h hw
  exact Option.some.inj (h1.symm.trans h2)

/-! ### The undirected conflict graph of a ConflictMap -/

/-- `x` appears (as either member of the key) in some non-`NoConflict`
entry. -/
def touched (l : ConflictMap) (x : Nat) : Prop :=
  ∃ a b c, ((a, b), c) ∈ l ∧ c ≠ Conflict.NoConflict ∧ (x = a ∨ x = b)

/-- Some non-`NoConflict` entry connects `x` and `y`, in either
direction. -/
def adjacent (l : ConflictMap) (x y : Nat) : Prop :=
  (∃ c, ((x, y), c) ∈ l ∧ c ≠ Conflict.NoConflict) ∨
  (∃ c, ((y, x), c) ∈ l ∧ c ≠ Conflict.NoConflict)

/-- Connectivity in the undirected conflict graph. -/
def connected (l : ConflictMap) : Nat → Nat → Prop :=
  Relation.ReflTransGen (adjacent l)

theorem adjacent_symm {l : ConflictMap} : Symmetric (adjacent l) := by
  rintro x y (h | h)
  · exact Or.inr h
  · exact Or.inl h

theorem connected_symm {l : ConflictMap} : Symmetric (connected l) :=
  Relation.ReflTransGen.symmetric adjacent_symm

theorem connected_refl {l : ConflictMap} (x : Nat) : connected l x x :=
  Relation.ReflTransGen.refl

theorem connected_trans {l : ConflictMap} {x y z : Nat} :
    connected l x y → connected l y z → connected l x z :=
  Relation.ReflTransGen.trans

theorem adjacent_connected {l : ConflictMap} {x y : Nat} (h : adjacent l x y) :
    connected l x y :=
  Relation.ReflTransGen.single h

theorem touched_of_adjacent_left {l : ConflictMap} {x y : Nat} (h : adjacent l x y) :
    touched l x := by
  rcases h with ⟨c, hm, hc⟩ | ⟨c, hm, hc⟩
  · exact ⟨x, y, c, hm, hc, Or.inl rfl⟩
  · exact ⟨y, x, c, hm, hc, Or.inr rfl⟩

theorem touched_of_adjacent_right {l : ConflictMap} {x y : Nat} (h : adjacent l x y) :
    touched l y :=
  touched_of_adjacent_left (adjacent_symm h)

theorem touched_iff_exists_adjacent {l : ConflictMap} {x : Nat} :
    touched l x ↔ ∃ y, adjacent l x y := by
  constructor
  · rintro ⟨a, b, c, hm, hc, hx | hx⟩
    · exact ⟨b, Or.inl ⟨c, hx ▸ hm, hc⟩⟩
    · exact ⟨a, Or.inr ⟨c, hx ▸ hm, hc⟩⟩
  · rintro ⟨y, h⟩
    exact touched_of_adjacent_left h

/-- An id not appearing in any non-`NoConflict` entry is isolated. -/
theorem connected_eq_of_not_touched {l : ConflictMap} {x y : Nat}
    (hy : ¬ touched l y) (h : connected l x y) : x = y := by
  rcases Relation.ReflTransGen.cases_tail h with heq | ⟨m, _, hstep⟩
  · exact heq.symm
  · exact absurd (touched_of_adjacent_right hstep) hy

/-! Congruence of the graph under entry-membership-preserving changes. -/

theorem adjacent_congr {l1 l2 : ConflictMap} (h : ∀ p, p ∈ l1 ↔ p ∈ l2) {x y : Nat} :
    adjacent l1 x y ↔ adjacent l2 x y := by
  unfold adjacent
  constructor
  · rintro (⟨c, hm, hc⟩ | ⟨c, hm, hc⟩)
    · exact Or.inl ⟨c, (h _).mp hm, hc⟩
    · exact Or.inr ⟨c, (h _).mp hm, hc⟩
  · rintro (⟨c, hm, hc⟩ | ⟨c, hm, hc⟩)
    · exact Or.inl ⟨c, (h _).mpr hm, hc⟩
    · exact Or.inr ⟨c, (h _).mpr hm, hc⟩

theorem touched_congr {l1 l2 : ConflictMap} (h : ∀ p, p ∈ l1 ↔ p ∈ l2) {x : Nat} :
    touched l1 x ↔ touched l2 x := by
  unfold touched
  constructor
  · rintro ⟨a, b, c, hm, hc, hx⟩
    exact ⟨a, b, c, (h _).mp hm, hc, hx⟩
  · rintro ⟨a, b, c, hm, hc, hx⟩
    exact ⟨a, b, c, (h _).mpr hm, hc, hx⟩

theorem connected_congr {l1 l2 : ConflictMap} (h : ∀ p, p ∈ l1 ↔ p ∈ l2) {x y : Nat} :
    connected l1 x y ↔ connected l2 x y := by
  constructor
  · exact Relation.ReflTransGen.mono (fun a b hab => (adjacent_congr h).mp hab)
  · exact Relation.ReflTransGen.mono (fun a b hab => (adjacent_congr h).mpr hab)

/-! ### Appending one entry to the graph -/

theorem mem_append_single {l : ConflictMap} {p e : (Nat × Nat) × Conflict} :
    p ∈ l ++ [e] ↔ p ∈ l ∨ p = e := by
  rw [List.mem_append, List.mem_singleton]

theorem adjacent_append {l : ConflictMap} {k1 k2 : Nat} {c : Conflict} {x y : Nat} :
    adjacent (l ++ [((k1, k2), c)]) x y ↔
      adjacent l x y ∨
        (c ≠ Conflict.NoConflict ∧ ((x = k1 ∧ y = k2) ∨ (x = k2 ∧ y = k1))) := by
  constructor
  · rintro (⟨c', hm, hc'⟩ | ⟨c', hm, hc'⟩)
    · rcases mem_append_single.mp hm with hm | he
      · exact Or.inl (Or.inl ⟨c', hm, hc'⟩)
      · have hk : ((x, y) : Nat × Nat) = (k1, k2) := congrArg Prod.fst he
        have hcc : c' = c := congrArg Prod.snd he
        exact Or.inr ⟨hcc ▸ hc',
          Or.inl ⟨congrArg Prod.fst hk, congrArg Prod.snd hk⟩⟩
    · rcases mem_append_single.mp hm with hm | he
      · exact Or.inl (Or.inr ⟨c', hm, hc'⟩)
      · have hk : ((y, x) : Nat × Nat) = (k1, k2) := congrArg Prod.fst he
        have hcc : c' = c := congrArg Prod.snd he
        exact Or.inr ⟨hcc ▸ hc',
          Or.inr ⟨congrArg Prod.snd hk, congrArg Prod.fst hk⟩⟩
  · rintro (h | ⟨hc, ⟨rfl, rfl⟩ | ⟨rfl, rfl⟩⟩)
    · rcases h with ⟨c', hm, hc'⟩ | ⟨c', hm, hc'⟩
      · exact Or.inl ⟨c', mem_append_single.mpr (Or.inl hm), hc'⟩
      · exact Or.inr ⟨c', mem_append_single.mpr (Or.inl hm), hc'⟩
    · exact Or.inl ⟨c, mem_append_single.mpr (Or.inr rfl), hc⟩
    · exact Or.inr ⟨c, mem_append_single.mpr (Or.inr rfl), hc⟩

theorem touched_append {l : ConflictMap} {k1 k2 : Nat} {c : Conflict} {x : Nat} :
    touched (l ++ [((k1, k2), c)]) x ↔
      touched l x ∨ (c ≠ Conflict.NoConflict ∧ (x = k1 ∨ x = k2)) := by
  constructor
  · rintro ⟨a, b, c', hm, hc', hx⟩
    rcases mem_append_single.mp hm with hm | he
    · exact Or.inl ⟨a, b, c', hm, hc', hx⟩
    · have hk : ((a, b) : Nat × Nat) = (k1, k2) := congrArg Prod.fst he
      have hcc : c' = c := congrArg Prod.snd he
      have ha : a = k1 := congrArg Prod.fst hk
      have hb : b = k2 := congrArg Prod.snd hk
      refine Or.inr ⟨hcc ▸ hc', ?_⟩
      rcases hx with rfl | rfl
      · exact Or.inl ha
      · exact Or.inr hb
  · rintro (⟨a, b, c', hm, hc', hx⟩ | ⟨hc, hx⟩)
    · exact ⟨a, b, c', mem_append_single.mpr (Or.inl hm), hc', hx⟩
    · exact ⟨k1, k2, c, mem_append_single.mpr (Or.inr rfl), hc, hx⟩

theorem connected_append {l : ConflictMap} {k1 k2 : Nat} {c : Conflict}
    (hc : c ≠ Conflict.NoConflict) {x y : Nat} :
    connected (l ++ [((k1, k2), c)]) x y ↔
      connected l x y ∨ (connected l x k1 ∧ connected l k2 y) ∨
        (connected l x k2 ∧ connected l k1 y) := by
  constructor
  · intro h
    induction h with
    | refl => exact Or.inl (connected_refl x)
    | tail hxm hstep ih =>
      rcases adjacent_append.mp hstep with hadj | ⟨_, hors⟩
      · rcases ih with h1 | ⟨h1, h2⟩ | ⟨h1, h2⟩
        · exact Or.inl (h1.tail hadj)
        · exact Or.inr (Or.inl ⟨h1, h2.tail hadj⟩)
        · exact Or.inr (Or.inr ⟨h1, h2.tail hadj⟩)
      · rcases hors with ⟨hm1, hy2⟩ | ⟨hm2, hy1⟩
        · rw [hm1] at ih
          rw [hy2]
          rcases ih with h1 | ⟨h1, h2⟩ | ⟨h1, h2⟩
          · exact Or.inr (Or.inl ⟨h1, connected_refl k2⟩)
          · exact Or.inr (Or.inl ⟨h1, connected_refl k2⟩)
          · exact Or.inl h1
        · rw [hm2] at ih
          rw [hy1]
          rcases ih with h1 | ⟨h1, h2⟩ | ⟨h1, h2⟩
          · exact Or.inr (Or.inr ⟨h1, connected_refl k1⟩)
          · exact Or.inl h1
          · exact Or.inr (Or.inr ⟨h1, connected_refl k1⟩)
  · have hmono : ∀ {a b : Nat}, connected l a b → connected (l ++ [((k1, k2), c)]) a b :=
      fun hab => Relation.ReflTransGen.mono
        (fun _ _ had => adjacent_append.mpr (Or.inl had)) hab
    rintro (h | ⟨h1, h2⟩ | ⟨h1, h2⟩)
    · exact hmono h
    · have hedge : adjacent (l ++ [((k1, k2), c)]) k1 k2 :=
        adjacent_append.mpr (Or.inr ⟨hc, Or.inl ⟨rfl, rfl⟩⟩)
      exact ((hmono h1).tail hedge).trans (hmono h2)
    · have hedge : adjacent (l ++ [((k1, k2), c)]) k2 k1 :=
        adjacent_append.mpr (Or.inr ⟨hc, Or.inr ⟨rfl, rfl⟩⟩)
      exact ((hmono h1).tail hedge).trans (hmono h2)

theorem adjacent_append_noConflict {l : ConflictMap} {k1 k2 : Nat} {x y : Nat} :
    adjacent (l ++ [((k1, k2), Conflict.NoConflict)]) x y ↔ adjacent l x y := by
  rw [adjacent_append]
  constructor
  · rintro (h | ⟨hc, _⟩)
    · exact h
    · exact absurd rfl hc
  · exact Or.inl

theorem touched_append_noConflict {l : ConflictMap} {k1 k2 : Nat} {x : Nat} :
    touched (l ++ [((k1, k2), Conflict.NoConflict)]) x ↔ touched l x := by
  rw [touched_append]
  constructor
  · rintro (h | ⟨hc, _⟩)
    · exact h
    · exact absurd rfl hc
  · exact Or.inl

theorem connected_append_noConflict {l : ConflictMap} {k1 k2 : Nat} {x y : Nat} :
    connected (l ++ [((k1, k2), Conflict.NoConflict)]) x y ↔ connected l x y := by
  constructor
  · exact Relation.ReflTransGen.mono (fun _ _ had => adjacent_append_noConflict.mp had)
  · exact Relation.ReflTransGen.mono (fun _ _ had => adjacent_append_noConflict.mpr had)

/-! ### Invariant of the clustering state

The arena `sets` and the reverse lookup `toSet` together represent, after
processing the entries `l`, exactly the partition of the touched ids into
connected components of the undirected conflict graph of `l`. -/

structure ClusterInv (l : ConflictMap) (s : CSState) : Prop where
  keysNodup : (s.sets.map Prod.fst).Nodup
  memSet : ∀ i S, (i, S) ∈ s.sets → ∀ x, x ∈ S ↔ s.toSet x = some i
  setExists : ∀ x i, s.toSet x = some i → ∃ S, (i, S) ∈ s.sets
  setsNonempty : ∀ i S, (i, S) ∈ s.sets → ∃ x, x ∈ S
  touchedIff : ∀ x, (s.toSet x).isSome ↔ touched l x
  connIff : ∀ x y i j, s.toSet x = some i → s.toSet y = some j →
    (connected l x y ↔ i = j)
  fresh : ∀ x i, s.toSet x = some i → i < s.setId

theorem ClusterInv.keyFresh {l : ConflictMap} {s : CSState} (inv : ClusterInv l s)
    {i : Int} {S : Finset Nat} (h : (i, S) ∈ s.sets) : i < s.setId := by
  obtain ⟨x, hx⟩ := inv.setsNonempty i S h
  exact inv.fresh x i ((inv.memSet i S h x).mp hx)

theorem clusterInv_nil : ClusterInv [] initialCSState := by
  refine ⟨List.nodup_nil, ?_, ?_, ?_, ?_, ?_, ?_⟩
  · intro i S h; cases h
  · intro x i h; cases h
  · intro i S h; cases h
  · intro x
    constructor
    · intro h; cases h
    · rintro ⟨a, b, c, hm, _⟩; cases hm
  · intro x y i j hx; cases hx
  · intro x i h; cases h

theorem clusterInv_noConflict {l : ConflictMap} {s : CSState} {k1 k2 : Nat}
    (inv : ClusterInv l s) :
    ClusterInv (l ++ [((k1, k2), Conflict.NoConflict)]) s := by
  refine ⟨inv.keysNodup, inv.memSet, inv.setExists, inv.setsNonempty, ?_, ?_, inv.fresh⟩
  · intro x
    rw [touched_append_noConflict]
    exact inv.touchedIff x
  · intro x y i j hx hy
    rw [connected_append_noConflict]
    exact inv.connIff x y i j hx hy

theorem clusterInv_step_same {l : ConflictMap} {s : CSState} {k1 k2 : Nat} {c : Conflict}
    {i : Int} (inv : ClusterInv l s) (hc : c ≠ Conflict.NoConflict)
    (h1 : s.toSet k1 = some i) (h2 : s.toSet k2 = some i) :
    ClusterInv (l ++ [((k1, k2), c)]) s := by
  have hconn : connected l k1 k2 := (inv.connIff k1 k2 i i h1 h2).mpr rfl
  have hconn_iff : ∀ x y, connected (l ++ [((k1, k2), c)]) x y ↔ connected l x y := by
    intro x y
    rw [connected_append hc]
    constructor
    · rintro (h | ⟨ha, hb⟩ | ⟨ha, hb⟩)
      · exact h
      · exact (ha.trans hconn).trans hb
      · exact (ha.trans (connected_symm hconn)).trans hb
    · exact Or.inl
  refine ⟨inv.keysNodup, inv.memSet, inv.setExists, inv.setsNonempty, ?_, ?_, inv.fresh⟩
  · intro x
    rw [touched_append]
    constructor
    · intro h
      exact Or.inl ((inv.touchedIff x).mp h)
    · rintro (h | ⟨_, rfl | rfl⟩)
      · exact (inv.touchedIff x).mpr h
      · rw [h1]; rfl
      · rw [h2]; rfl
  · intro x y i' j' hx hy
    rw [hconn_iff]
    exact inv.connIff x y i' j' hx hy

theorem clusterInv_step_new {l : ConflictMap} {s : CSState} {k1 k2 : Nat} {c : Conflict}
    (inv : ClusterInv l s) (hc : c ≠ Conflict.NoConflict)
    (h1 : s.toSet k1 = none) (h2 : s.toSet k2 = none) :
    ClusterInv (l ++ [((k1, k2), c)])
      { setId := s.setId + 1
        sets := alInsert s.sets s.setId {k1, k2}
        toSet := fun x => if x = k1 ∨ x = k2 then some s.setId else s.toSet x } := by
  have hk1un : ¬ touched l k1 := fun ht => by
    have hs := (inv.touchedIff k1).mpr ht
    rw [h1] at hs
    cases hs
  have hk2un : ¬ touched l k2 := fun ht => by
    have hs := (inv.touchedIff k2).mpr ht
    rw [h2] at hs
    cases hs
  refine ⟨keys_nodup_alInsert inv.keysNodup _ _, ?_, ?_, ?_, ?_, ?_, ?_⟩
  · intro i' S' hmem x
    rcases mem_alInsert.mp hmem with heq | ⟨hold, hne⟩
    · have hi : i' = s.setId := congrArg Prod.fst heq
      have hS : S' = {k1, k2} := congrArg Prod.snd heq
      subst hi; subst hS
      dsimp only
      constructor
      · intro hx
        rcases Finset.mem_insert.mp hx with rfl | hx
        · rw [if_pos (Or.inl rfl)]
        · rw [Finset.mem_singleton] at hx
          subst hx
          rw [if_pos (Or.inr rfl)]
      · intro hx
        by_cases hxk : x = k1 ∨ x = k2
        · rcases hxk with rfl | rfl
          · exact Finset.mem_insert_self _ _
          · exact Finset.mem_insert_of_mem (Finset.mem_singleton_self _)
        · rw [if_neg hxk] at hx
          exact absurd (inv.fresh x s.setId hx) (lt_irrefl _)
    · dsimp only
      constructor
      · intro hx
        have hts := (inv.memSet i' S' hold x).mp hx
        have hx1 : x ≠ k1 := fun h => by rw [h, h1] at hts; cases hts
        have hx2 : x ≠ k2 := fun h => by rw [h, h2] at hts; cases hts
        rw [if_neg (not_or.mpr ⟨hx1, hx2⟩)]
        exact hts
      · intro hx
        by_cases hxk : x = k1 ∨ x = k2
        · rw [if_pos hxk] at hx
          exact absurd (Option.some.inj hx).symm hne
        · rw [if_neg hxk] at hx
          exact (inv.memSet i' S' hold x).mpr hx
  · intro x i' hx
    dsimp only at hx
    by_cases hxk : x = k1 ∨ x = k2
    · rw [if_pos hxk] at hx
      refine ⟨{k1, k2}, ?_⟩
      rw [← Option.some.inj hx]
      exact mem_alInsert.mpr (Or.inl rfl)
    · rw [if_neg hxk] at hx
      obtain ⟨S', hS'⟩ := inv.setExists x i' hx
      refine ⟨S', mem_alInsert.mpr (Or.inr ⟨hS', ?_⟩)⟩
      intro h
      exact absurd (h ▸ inv.keyFresh hS') (lt_irrefl _)
  · intro i' S' hmem
    rcases mem_alInsert.mp hmem with heq | ⟨hold, _⟩
    · have hS : S' = {k1, k2} := congrArg Prod.snd heq
      exact ⟨k1, by rw [hS]; exact Finset.mem_insert_self _ _⟩
    · exact inv.setsNonempty i' S' hold
  · intro x
    dsimp only
    rw [touched_append]
    by_cases hxk : x = k1 ∨ x = k2
    · rw [if_pos hxk]
      constructor
      · intro _
        exact Or.inr ⟨hc, hxk⟩
      · intro _
        rfl
    · rw [if_neg hxk]
      constructor
      · intro h
        exact Or.inl ((inv.touchedIff x).mp h)
      · rintro (h | ⟨_, hx⟩)
        · exact (inv.touchedIff x).mpr h
        · exact absurd hx hxk
  · intro x y i' j' hx hy
    dsimp only at hx hy
    rw [connected_append hc]
    have hcx1 : ∀ z, connected l z k1 → z = k1 :=
      fun z h => connected_eq_of_not_touched hk1un h
    have hcx2 : ∀ z, connected l z k2 → z = k2 :=
      fun z h => connected_eq_of_not_touched hk2un h
    have hc1y : ∀ z, connected l k1 z → k1 = z :=
      fun z h => (hcx1 z (connected_symm h)).symm
    have hc2y : ∀ z, connected l k2 z → k2 = z :=
      fun z h => (hcx2 z (connected_symm h)).symm
    by_cases hxk : x = k1 ∨ x = k2 <;> by_cases hyk : y = k1 ∨ y = k2
    · rw [if_pos hxk] at hx
      rw [if_pos hyk] at hy
      have hi : i' = j' := (Option.some.inj hx).symm.trans (Option.some.inj hy)
      constructor
      · intro _
        exact hi
      · intro _
        rcases hxk with rfl | rfl <;> rcases hyk with rfl | rfl
        · exact Or.inl (connected_refl _)
        · exact Or.inr (Or.inl ⟨connected_refl _, connected_refl _⟩)
        · exact Or.inr (Or.inr ⟨connected_refl _, connected_refl _⟩)
        · exact Or.inl (connected_refl _)
    · rw [if_pos hxk] at hx
      rw [if_neg hyk] at hy
      have hne' : i' ≠ j' := by
        have hj := inv.fresh y j' hy
        intro h
        rw [Option.some.inj hx, h] at hj
        exact absurd hj (lt_irrefl _)
      constructor
      · rintro (h | ⟨ha, hb⟩ | ⟨ha, hb⟩)
        · exfalso
          rcases hxk with rfl | rfl
          · exact hyk (Or.inl (hc1y y h).symm)
          · exact hyk (Or.inr (hc2y y h).symm)
        · exfalso
          exact hyk (Or.inr (hc2y y hb).symm)
        · exfalso
          exact hyk (Or.inl (hc1y y hb).symm)
      · intro h
        exact absurd h hne'
    · rw [if_neg hxk] at hx
      rw [if_pos hyk] at hy
      have hne' : i' ≠ j' := by
        have hi := inv.fresh x i' hx
        intro h
        rw [Option.some.inj hy, ← h] at hi
        exact absurd hi (lt_irrefl _)
      constructor
      · rintro (h | ⟨ha, hb⟩ | ⟨ha, hb⟩)
        · exfalso
          rcases hyk with rfl | rfl
          · exact hxk (Or.inl (hcx1 x h))
          · exact hxk (Or.inr (hcx2 x h))
        · exfalso
          exact hxk (Or.inl (hcx1 x ha))
        · exfalso
          exact hxk (Or.inr (hcx2 x ha))
      · intro h
        exact absurd h hne'
    · rw [if_neg hxk] at hx
      rw [if_neg hyk] at hy
      constructor
      · rintro (h | ⟨ha, hb⟩ | ⟨ha, hb⟩)
        · exact (inv.connIff x y i' j' hx hy).mp h
        · exact absurd (hcx1 x ha) (fun hh => hxk (Or.inl hh))
        · exact absurd (hcx2 x ha) (fun hh => hxk (Or.inr hh))
      · intro h
        exact Or.inl ((inv.connIff x y i' j' hx hy).mpr h)
  · intro x i' hx
    dsimp only at hx
    by_cases hxk : x = k1 ∨ x = k2
    · rw [if_pos hxk] at hx
      rw [← Option.some.inj hx]
      exact lt_add_one _
    · rw [if_neg hxk] at hx
      exact lt_trans (inv.fresh x i' hx) (lt_add_one _)

theorem clusterInv_step_left {l : ConflictMap} {s : CSState} {k1 k2 : Nat} {c : Conflict}
    {i : Int} (inv : ClusterInv l s) (hc : c ≠ Conflict.NoConflict)
    (h1 : s.toSet k1 = some i) (h2 : s.toSet k2 = none) :
    ClusterInv (l ++ [((k1, k2), c)])
      { setId := s.setId
        sets := alInsert s.sets i (insert k1 (insert k2 ((alGet s.sets i).getD ∅)))
        toSet := fun x => if x = k1 ∨ x = k2 then some i else s.toSet x } := by
  obtain ⟨S0, hS0⟩ := inv.setExists k1 i h1
  have hget : alGet s.sets i = some S0 := alGet_eq_of_mem_nodup inv.keysNodup hS0
  rw [hget, Option.getD_some]
  have hk2un : ¬ touched l k2 := fun ht => by
    have hs := (inv.touchedIff k2).mpr ht
    rw [h2] at hs
    cases hs
  have hS0mem : ∀ x, x ∈ S0 ↔ s.toSet x = some i := inv.memSet i S0 hS0
  refine ⟨keys_nodup_alInsert inv.keysNodup _ _, ?_, ?_, ?_, ?_, ?_, ?_⟩
  · intro i' S' hmem x
    rcases mem_alInsert.mp hmem with heq | ⟨hold, hne⟩
    · have hi : i' = i := congrArg Prod.fst heq
      have hS : S' = insert k1 (insert k2 S0) := congrArg Prod.snd heq
      subst hi; subst hS
      dsimp only
      constructor
      · intro hx
        by_cases hxk : x = k1 ∨ x = k2
        · rw [if_pos hxk]
        · rw [if_neg hxk]
          rcases Finset.mem_insert.mp hx with rfl | hx
          · exact absurd (Or.inl rfl) hxk
          rcases Finset.mem_insert.mp hx with rfl | hx
          · exact absurd (Or.inr rfl) hxk
          exact (hS0mem x).mp hx
      · intro hx
        by_cases hxk : x = k1 ∨ x = k2
        · rcases hxk with rfl | rfl
          · exact Finset.mem_insert_self _ _
          · exact Finset.mem_insert_of_mem (Finset.mem_insert_self _ _)
        · rw [if_neg hxk] at hx
          exact Finset.mem_insert_of_mem (Finset.mem_insert_of_mem ((hS0mem x).mpr hx))
    · dsimp only
      constructor
      · intro hx
        have hts := (inv.memSet i' S' hold x).mp hx
        have hx1 : x ≠ k1 := fun h => by
          rw [h, h1] at hts
          exact hne (Option.some.inj hts).symm
        have hx2 : x ≠ k2 := fun h => by rw [h, h2] at hts; cases hts
        rw [if_neg (not_or.mpr ⟨hx1, hx2⟩)]
        exact hts
      · intro hx
        by_cases hxk : x = k1 ∨ x = k2
        · rw [if_pos hxk] at hx
          exact absurd (Option.some.inj hx).symm hne
        · rw [if_neg hxk] at hx
          exact (inv.memSet i' S' hold x).mpr hx
  · intro x i' hx
    dsimp only at hx
    by_cases hxk : x = k1 ∨ x = k2
    · rw [if_pos hxk] at hx
      rw [← Option.some.inj hx]
      exact ⟨insert k1 (insert k2 S0), mem_alInsert.mpr (Or.inl rfl)⟩
    · rw [if_neg hxk] at hx
      by_cases hii : i' = i
      · subst hii
        exact ⟨insert k1 (insert k2 S0), mem_alInsert.mpr (Or.inl rfl)⟩
      · obtain ⟨S', hS'⟩ := inv.setExists x i' hx
        exact ⟨S', mem_alInsert.mpr (Or.inr ⟨hS', hii⟩)⟩
  · intro i' S' hmem
    rcases mem_alInsert.mp hmem with heq | ⟨hold, _⟩
    · have hS : S' = insert k1 (insert k2 S0) := congrArg Prod.snd heq
      exact ⟨k1, by rw [hS]; exact Finset.mem_insert_self _ _⟩
    · exact inv.setsNonempty i' S' hold
  · intro x
    dsimp only
    rw [touched_append]
    by_cases hxk : x = k1 ∨ x = k2
    · rw [if_pos hxk]
      exact ⟨fun _ => Or.inr ⟨hc, hxk⟩, fun _ => rfl⟩
    · rw [if_neg hxk]
      exact ⟨fun h => Or.inl ((inv.touchedIff x).mp h),
        fun h => h.elim (fun h' => (inv.touchedIff x).mpr h')
          (fun hx2 => absurd hx2.2 hxk)⟩
  · intro x y i' j' hx hy
    dsimp only at hx hy
    rw [connected_append hc]
    have hcx2 : ∀ z, connected l z k2 → z = k2 :=
      fun z h => connected_eq_of_not_touched hk2un h
    have hc2y : ∀ z, connected l k2 z → k2 = z :=
      fun z h => (hcx2 z (connected_symm h)).symm
    by_cases hxk : x = k1 ∨ x = k2 <;> by_cases hyk : y = k1 ∨ y = k2
    · rw [if_pos hxk] at hx
      rw [if_pos hyk] at hy
      have hi : i' = j' := (Option.some.inj hx).symm.trans (Option.some.inj hy)
      refine ⟨fun _ => hi, fun _ => ?_⟩
      rcases hxk with rfl | rfl <;> rcases hyk with rfl | rfl
      · exact Or.inl (connected_refl _)
      · exact Or.inr (Or.inl ⟨connected_refl _, connected_refl _⟩)
      · exact Or.inr (Or.inr ⟨connected_refl _, connected_refl _⟩)
      · exact Or.inl (connected_refl _)
    · rw [if_pos hxk] at hx
      rw [if_neg hyk] at hy
      have hxi : i = i' := Option.some.inj hx
      constructor
      · rintro (h | ⟨ha, hb⟩ | ⟨ha, hb⟩)
        · rcases hxk with rfl | rfl
          · exact hxi.symm.trans ((inv.connIff x y i j' h1 hy).mp h)
          · exact absurd (hc2y y h).symm (fun hh => hyk (Or.inr hh))
        · exact absurd (hc2y y hb).symm (fun hh => hyk (Or.inr hh))
        · exact hxi.symm.trans ((inv.connIff k1 y i j' h1 hy).mp hb)
      · intro h
        have hcy : connected l k1 y := (inv.connIff k1 y i j' h1 hy).mpr (hxi.trans h)
        rcases hxk with rfl | rfl
        · exact Or.inl hcy
        · exact Or.inr (Or.inr ⟨connected_refl _, hcy⟩)
    · rw [if_neg hxk] at hx
      rw [if_pos hyk] at hy
      have hyi : i = j' := Option.some.inj hy
      constructor
      · rintro (h | ⟨ha, hb⟩ | ⟨ha, hb⟩)
        · rcases hyk with rfl | rfl
          · exact ((inv.connIff x y i' i hx h1).mp h).trans hyi
          · exact absurd (hcx2 x h) (fun hh => hxk (Or.inr hh))
        · exact ((inv.connIff x k1 i' i hx h1).mp ha).trans hyi
        · exact absurd (hcx2 x ha) (fun hh => hxk (Or.inr hh))
      · intro h
        have hcx : connected l x k1 := (inv.connIff x k1 i' i hx h1).mpr (h.trans hyi.symm)
        rcases hyk with rfl | rfl
        · exact Or.inl hcx
        · exact Or.inr (Or.inl ⟨hcx, connected_refl _⟩)
    · rw [if_neg hxk] at hx
      rw [if_neg hyk] at hy
      constructor
      · rintro (h | ⟨ha, hb⟩ | ⟨ha, hb⟩)
        · exact (inv.connIff x y i' j' hx hy).mp h
        · exact absurd (hc2y y hb).symm (fun hh => hyk (Or.inr hh))
        · exact absurd (hcx2 x ha) (fun hh => hxk (Or.inr hh))
      · intro h
        exact Or.inl ((inv.connIff x y i' j' hx hy).mpr h)
  · intro x i' hx
    dsimp only at hx
    by_cases hxk : x = k1 ∨ x = k2
    · rw [if_pos hxk] at hx
      rw [← Option.some.inj hx]
      exact inv.fresh k1 i h1
    · rw [if_neg hxk] at hx
      exact inv.fresh x i' hx

theorem clusterInv_step_right {l : ConflictMap} {s : CSState} {k1 k2 : Nat} {c : Conflict}
    {i : Int} (inv : ClusterInv l s) (hc : c ≠ Conflict.NoConflict)
    (h1 : s.toSet k1 = none) (h2 : s.toSet k2 = some i) :
    ClusterInv (l ++ [((k1, k2), c)])
      { setId := s.setId
        sets := alInsert s.sets i (insert k1 (insert k2 ((alGet s.sets i).getD ∅)))
        toSet := fun x => if x = k1 ∨ x = k2 then some i else s.toSet x } := by
  obtain ⟨S0, hS0⟩ := inv.setExists k2 i h2
  have hget : alGet s.sets i = some S0 := alGet_eq_of_mem_nodup inv.keysNodup hS0
  rw [hget, Option.getD_some]
  have hk1un : ¬ touched l k1 := fun ht => by
    have hs := (inv.touchedIff k1).mpr ht
    rw [h1] at hs
    cases hs
  have hS0mem : ∀ x, x ∈ S0 ↔ s.toSet x = some i := inv.memSet i S0 hS0
  refine ⟨keys_nodup_alInsert inv.keysNodup _ _, ?_, ?_, ?_, ?_, ?_, ?_⟩
  · intro i' S' hmem x
    rcases mem_alInsert.mp hmem with heq | ⟨hold, hne⟩
    · have hi : i' = i := congrArg Prod.fst heq
      have hS : S' = insert k1 (insert k2 S0) := congrArg Prod.snd heq
      subst hi; subst hS
      dsimp only
      constructor
      · intro hx
        by_cases hxk : x = k1 ∨ x = k2
        · rw [if_pos hxk]
        · rw [if_neg hxk]
          rcases Finset.mem_insert.mp hx with rfl | hx
          · exact absurd (Or.inl rfl) hxk
          rcases Finset.mem_insert.mp hx with rfl | hx
          · exact absurd (Or.inr rfl) hxk
          exact (hS0mem x).mp hx
      · intro hx
        by_cases hxk : x = k1 ∨ x = k2
        · rcases hxk with rfl | rfl
          · exact Finset.mem_insert_self _ _
          · exact Finset.mem_insert_of_mem (Finset.mem_insert_self _ _)
        · rw [if_neg hxk] at hx
          exact Finset.mem_insert_of_mem (Finset.mem_insert_of_mem ((hS0mem x).mpr hx))
    · dsimp only
      constructor
      · intro hx
        have hts := (inv.memSet i' S' hold x).mp hx
        have hx1 : x ≠ k1 := fun h => by rw [h, h1] at hts; cases hts
        have hx2 : x ≠ k2 := fun h => by
          rw [h, h2] at hts
          exact hne (Option.some.inj hts).symm
        rw [if_neg (not_or.mpr ⟨hx1, hx2⟩)]
        exact hts
      · intro hx
        by_cases hxk : x = k1 ∨ x = k2
        · rw [if_pos hxk] at hx
          exact absurd (Option.some.inj hx).symm hne
        · rw [if_neg hxk] at hx
          exact (inv.memSet i' S' hold x).mpr hx
  · intro x i' hx
    dsimp only at hx
    by_cases hxk : x = k1 ∨ x = k2
    · rw [if_pos hxk] at hx
      rw [← Option.some.inj hx]
      exact ⟨insert k1 (insert k2 S0), mem_alInsert.mpr (Or.inl rfl)⟩
    · rw [if_neg hxk] at hx
      by_cases hii : i' = i
      · subst hii
        exact ⟨insert k1 (insert k2 S0), mem_alInsert.mpr (Or.inl rfl)⟩
      · obtain ⟨S', hS'⟩ := inv.setExists x i' hx
        exact ⟨S', mem_alInsert.mpr (Or.inr ⟨hS', hii⟩)⟩
  · intro i' S' hmem
    rcases mem_alInsert.mp hmem with heq | ⟨hold, _⟩
    · have hS : S' = insert k1 (insert k2 S0) := congrArg Prod.snd heq
      exact ⟨k1, by rw [hS]; exact Finset.mem_insert_self _ _⟩
    · exact inv.setsNonempty i' S' hold
  · intro x
    dsimp only
    rw [touched_append]
    by_cases hxk : x = k1 ∨ x = k2
    · rw [if_pos hxk]
      exact ⟨fun _ => Or.inr ⟨hc, hxk⟩, fun _ => rfl⟩
    · rw [if_neg hxk]
      exact ⟨fun h => Or.inl ((inv.touchedIff x).mp h),
        fun h => h.elim (fun h' => (inv.touchedIff x).mpr h')
          (fun hx2 => absurd hx2.2 hxk)⟩
  · intro x y i' j' hx hy
    dsimp only at hx hy
    rw [connected_append hc]
    have hcx1 : ∀ z, connected l z k1 → z = k1 :=
      fun z h => connected_eq_of_not_touched hk1un h
    have hc1y : ∀ z, connected l k1 z → k1 = z :=
      fun z h => (hcx1 z (connected_symm h)).symm
    by_cases hxk : x = k1 ∨ x = k2 <;> by_cases hyk : y = k1 ∨ y = k2
    · rw [if_pos hxk] at hx
      rw [if_pos hyk] at hy
      have hi : i' = j' := (Option.some.inj hx).symm.trans (Option.some.inj hy)
      refine ⟨fun _ => hi, fun _ => ?_⟩
      rcases hxk with rfl | rfl <;> rcases hyk with rfl | rfl
      · exact Or.inl (connected_refl _)
      · exact Or.inr (Or.inl ⟨connected_refl _, connected_refl _⟩)
      · exact Or.inr (Or.inr ⟨connected_refl _, connected_refl _⟩)
      · exact Or.inl (connected_refl _)
    · rw [if_pos hxk] at hx
      rw [if_neg hyk] at hy
      have hxi : i = i' := Option.some.inj hx
      constructor
      · rintro (h | ⟨ha, hb⟩ | ⟨ha, hb⟩)
        · rcases hxk with rfl | rfl
          · exact absurd (hc1y y h).symm (fun hh => hyk (Or.inl hh))
          · exact hxi.symm.trans ((inv.connIff x y i j' h2 hy).mp h)
        · exact hxi.symm.trans ((inv.connIff k2 y i j' h2 hy).mp hb)
        · exact absurd (hc1y y hb).symm (fun hh => hyk (Or.inl hh))
      · intro h
        have hcy : connected l k2 y := (inv.connIff k2 y i j' h2 hy).mpr (hxi.trans h)
        rcases hxk with rfl | rfl
        · exact Or.inr (Or.inl ⟨connected_refl _, hcy⟩)
        · exact Or.inl hcy
    · rw [if_neg hxk] at hx
      rw [if_pos hyk] at hy
      have hyi : i = j' := Option.some.inj hy
      constructor
      · rintro (h | ⟨ha, hb⟩ | ⟨ha, hb⟩)
        · rcases hyk with rfl | rfl
          · exact absurd (hcx1 x h) (fun hh => hxk (Or.inl hh))
          · exact ((inv.connIff x y i' i hx h2).mp h).trans hyi
        · exact absurd (hcx1 x ha) (fun hh => hxk (Or.inl hh))
        · exact ((inv.connIff x k2 i' i hx h2).mp ha).trans hyi
      · intro h
        have hcx : connected l x k2 := (inv.connIff x k2 i' i hx h2).mpr (h.trans hyi.symm)
        rcases hyk with rfl | rfl
        · exact Or.inr (Or.inr ⟨hcx, connected_refl _⟩)
        · exact Or.inl hcx
    · rw [if_neg hxk] at hx
      rw [if_neg hyk] at hy
      constructor
      · rintro (h | ⟨ha, hb⟩ | ⟨ha, hb⟩)
        · exact (inv.connIff x y i' j' hx hy).mp h
        · exact absurd (hcx1 x ha) (fun hh => hxk (Or.inl hh))
        · exact absurd (hc1y y hb).symm (fun hh => hyk (Or.inl hh))
      · intro h
        exact Or.inl ((inv.connIff x y i' j' hx hy).mpr h)
  · intro x i' hx
    dsimp only at hx
    by_cases hxk : x = k1 ∨ x = k2
    · rw [if_pos hxk] at hx
      rw [← Option.some.inj hx]
      exact inv.fresh k2 i h2
    · rw [if_neg hxk] at hx
      exact inv.fresh x i' hx

theorem merge_aux {i j a b : Int} :
    (a = b ∨ (a = i ∧ j = b) ∨ (a = j ∧ i = b)) ↔
      (if a = j then i else a) = (if b = j then i else b) := by
  by_cases haj : a = j <;> by_cases hbj : b = j <;> simp [haj, hbj] <;> omega

theorem clusterInv_step_merge {l : ConflictMap} {s : CSState} {k1 k2 : Nat} {c : Conflict}
    {i j : Int} (inv : ClusterInv l s) (hc : c ≠ Conflict.NoConflict)
    (h1 : s.toSet k1 = some i) (h2 : s.toSet k2 = some j) (hij : i ≠ j) :
    ClusterInv (l ++ [((k1, k2), c)])
      { setId := s.setId
        sets := alInsert (alRemove (alRemove s.sets i) j) i
          (((alGet s.sets i).getD ∅) ∪ ((alGet s.sets j).getD ∅))
        toSet := fun x => if x ∈ (alGet s.sets j).getD ∅ then some i else s.toSet x } := by
  obtain ⟨S1, hS1⟩ := inv.setExists k1 i h1
  obtain ⟨S2, hS2⟩ := inv.setExists k2 j h2
  have hget1 : alGet s.sets i = some S1 := alGet_eq_of_mem_nodup inv.keysNodup hS1
  have hget2 : alGet s.sets j = some S2 := alGet_eq_of_mem_nodup inv.keysNodup hS2
  rw [hget1, hget2, Option.getD_some, Option.getD_some]
  have hS1mem : ∀ x, x ∈ S1 ↔ s.toSet x = some i := inv.memSet i S1 hS1
  have hS2mem : ∀ x, x ∈ S2 ↔ s.toSet x = some j := inv.memSet j S2 hS2
  have hk1S1 : k1 ∈ S1 := (hS1mem k1).mpr h1
  have hk2S2 : k2 ∈ S2 := (hS2mem k2).mpr h2
  have hmem_iff : ∀ p : Int × Finset Nat,
      p ∈ alInsert (alRemove (alRemove s.sets i) j) i (S1 ∪ S2) ↔
        p = (i, S1 ∪ S2) ∨ (p ∈ s.sets ∧ p.1 ≠ i ∧ p.1 ≠ j) := by
    intro p
    rw [mem_alInsert, mem_alRemove, mem_alRemove]
    constructor
    · rintro (h | ⟨⟨⟨hm, hni⟩, hnj⟩, _⟩)
      · exact Or.inl h
      · exact Or.inr ⟨hm, hni, hnj⟩
    · rintro (h | ⟨hm, hni, hnj⟩)
      · exact Or.inl h
      · exact Or.inr ⟨⟨⟨hm, hni⟩, hnj⟩, hni⟩
  refine ⟨keys_nodup_alInsert
      (keys_nodup_alRemove (keys_nodup_alRemove inv.keysNodup i) j) _ _,
    ?_, ?_, ?_, ?_, ?_, ?_⟩
  · intro i' S' hmem x
    rcases (hmem_iff _).mp hmem with heq | ⟨hold, hni, hnj⟩
    · have hi : i' = i := congrArg Prod.fst heq
      have hS : S' = S1 ∪ S2 := congrArg Prod.snd heq
      subst hi; subst hS
      dsimp only
      constructor
      · intro hx
        rcases Finset.mem_union.mp hx with hx | hx
        · by_cases hx2 : x ∈ S2
          · rw [if_pos hx2]
          · rw [if_neg hx2]
            exact (hS1mem x).mp hx
        · rw [if_pos hx]
      · intro hx
        by_cases hx2 : x ∈ S2
        · exact Finset.mem_union_right _ hx2
        · rw [if_neg hx2] at hx
          exact Finset.mem_union_left _ ((hS1mem x).mpr hx)
    · dsimp only
      constructor
      · intro hx
        have hts := (inv.memSet i' S' hold x).mp hx
        have hx2 : x ∉ S2 := fun hx2 => by
          have hj := (hS2mem x).mp hx2
          rw [hts] at hj
          exact hnj (Option.some.inj hj)
        rw [if_neg hx2]
        exact hts
      · intro hx
        by_cases hx2 : x ∈ S2
        · rw [if_pos hx2] at hx
          exact absurd (Option.some.inj hx).symm hni
        · rw [if_neg hx2] at hx
          exact (inv.memSet i' S' hold x).mpr hx
  · intro x i' hx
    dsimp only at hx
    by_cases hx2 : x ∈ S2
    · rw [if_pos hx2] at hx
      rw [← Option.some.inj hx]
      exact ⟨S1 ∪ S2, (hmem_iff _).mpr (Or.inl rfl)⟩
    · rw [if_neg hx2] at hx
      by_cases hii : i' = i
      · subst hii
        exact ⟨S1 ∪ S2, (hmem_iff _).mpr (Or.inl rfl)⟩
      · have hij' : i' ≠ j := fun h => hx2 ((hS2mem x).mpr (by rw [← h]; exact hx))
        obtain ⟨S', hS'⟩ := inv.setExists x i' hx
        exact ⟨S', (hmem_iff _).mpr (Or.inr ⟨hS', hii, hij'⟩)⟩
  · intro i' S' hmem
    rcases (hmem_iff _).mp hmem with heq | ⟨hold, _, _⟩
    · have hS : S' = S1 ∪ S2 := congrArg Prod.snd heq
      exact ⟨k1, by rw [hS]; exact Finset.mem_union_left _ hk1S1⟩
    · exact inv.setsNonempty i' S' hold
  · intro x
    dsimp only
    rw [touched_append]
    by_cases hx2 : x ∈ S2
    · rw [if_pos hx2]
      constructor
      · intro _
        refine Or.inl ((inv.touchedIff x).mp ?_)
        rw [(hS2mem x).mp hx2]
        rfl
      · intro _
        rfl
    · rw [if_neg hx2]
      constructor
      · intro h
        exact Or.inl ((inv.touchedIff x).mp h)
      · rintro (h | ⟨_, hx⟩)
        · exact (inv.touchedIff x).mpr h
        · rcases hx with rfl | rfl
          · rw [h1]; rfl
          · exact absurd hk2S2 hx2
  · intro x y i' j' hx hy
    dsimp only at hx hy
    rw [connected_append hc]
    have hxc : ∃ a, s.toSet x = some a ∧ i' = (if a = j then i else a) := by
      by_cases hx2 : x ∈ S2
      · rw [if_pos hx2] at hx
        refine ⟨j, (hS2mem x).mp hx2, ?_⟩
        rw [if_pos rfl, ← Option.some.inj hx]
      · rw [if_neg hx2] at hx
        refine ⟨i', hx, ?_⟩
        rw [if_neg (fun h => hx2 ((hS2mem x).mpr (by rw [← h]; exact hx)))]
    have hyc : ∃ b, s.toSet y = some b ∧ j' = (if b = j then i else b) := by
      by_cases hy2 : y ∈ S2
      · rw [if_pos hy2] at hy
        refine ⟨j, (hS2mem y).mp hy2, ?_⟩
        rw [if_pos rfl, ← Option.some.inj hy]
      · rw [if_neg hy2] at hy
        refine ⟨j', hy, ?_⟩
        rw [if_neg (fun h => hy2 ((hS2mem y).mpr (by rw [← h]; exact hy)))]
    obtain ⟨a, ha, hia⟩ := hxc
    obtain ⟨b, hb, hjb⟩ := hyc
    rw [inv.connIff x y a b ha hb, inv.connIff x k1 a i ha h1,
      inv.connIff k2 y j b h2 hb, inv.connIff x k2 a j ha h2,
      inv.connIff k1 y i b h1 hb, hia, hjb]
    exact merge_aux
  · intro x i' hx
    dsimp only at hx
    by_cases hx2 : x ∈ S2
    · rw [if_pos hx2] at hx
      rw [← Option.some.inj hx]
      exact inv.fresh k1 i h1
    · rw [if_neg hx2] at hx
      exact inv.fresh x i' hx

/-- Processing one entry preserves the clustering invariant. -/
theorem clusterStep_inv {l : ConflictMap} {s : CSState} (inv : ClusterInv l s)
    (e : (Nat × Nat) × Conflict) : ClusterInv (l ++ [e]) (clusterStep s e) := by
  obtain ⟨⟨k1, k2⟩, c⟩ := e
  by_cases hc : c = Conflict.NoConflict
  · subst hc
    unfold clusterStep
    dsimp only
    rw [if_pos rfl]
    exact clusterInv_noConflict inv
  · unfold clusterStep
    dsimp only
    rw [if_neg hc]
    rcases hh1 : s.toSet k1 with _ | i <;> rcases hh2 : s.toSet k2 with _ | j
    · exact clusterInv_step_new inv hc hh1 hh2
    · exact clusterInv_step_right inv hc hh1 hh2
    · exact clusterInv_step_left inv hc hh1 hh2
    · dsimp only
      by_cases hij : i = j
      · subst hij
        rw [if_pos rfl]
        exact clusterInv_step_same inv hc hh1 hh2
      · rw [if_neg hij]
        exact clusterInv_step_merge inv hc hh1 hh2 hij

/-- After the whole clustering loop, the state represents exactly the
connected components of the undirected conflict graph. -/
theorem clusterInv_runClusters (l : ConflictMap) : ClusterInv l (runClusters l) := by
  induction l using List.reverseRecOn with
  | nil => exact clusterInv_nil
  | append_singleton l e ih =>
    have hstep : runClusters (l ++ [e]) = clusterStep (runClusters l) e := by
      rw [runClusters, runClusters, List.foldl_append, List.foldl_cons, List.foldl_nil]
    rw [hstep]
    exact clusterStep_inv ih e

theorem touched_of_connected_ne {l : ConflictMap} {x y : Nat} (h : connected l x y)
    (hne : x ≠ y) : touched l y := by
  rcases Relation.ReflTransGen.cases_tail h with heq | ⟨m, _, hstep⟩
  · exact absurd heq.symm hne
  · exact touched_of_adjacent_right hstep

theorem mem_runClusters_set_of_connected {l : ConflictMap} {x y : Nat} {i : Int}
    {S : Finset Nat} (hi : (runClusters l).toSet x = some i)
    (hS : (i, S) ∈ (runClusters l).sets) (h : connected l x y) : y ∈ S := by
  have inv := clusterInv_runClusters l
  by_cases hxy : x = y
  · subst hxy
    exact (inv.memSet i S hS x).mpr hi
  · have hty := touched_of_connected_ne h hxy
    obtain ⟨j, hj⟩ := Option.isSome_iff_exists.mp ((inv.touchedIff y).mpr hty)
    have hij : i = j := (inv.connIff x y i j hi hj).mp h
    refine (inv.memSet i S hS y).mpr ?_
    rw [hij]
    exact hj

/-- A set is returned by `get_conflict_sets` exactly when it is the
connected component of some touched id. -/
theorem mem_get_conflict_sets_iff_component (l : ConflictMap) (S : Finset Nat) :
    S ∈ get_conflict_sets l ↔
      ∃ x, touched l x ∧ ∀ y, (y ∈ S ↔ connected l x y) := by
  have inv := clusterInv_runClusters l
  rw [mem_get_conflict_sets]
  constructor
  · intro hmem
    obtain ⟨⟨i, S'⟩, hiS, hsnd⟩ := List.mem_map.mp hmem
    have hSS : S' = S := hsnd
    rw [hSS] at hiS
    obtain ⟨x, hx⟩ := inv.setsNonempty i S hiS
    have htx : (runClusters l).toSet x = some i := (inv.memSet i S hiS x).mp hx
    refine ⟨x, (inv.touchedIff x).mp (by rw [htx]; rfl), ?_⟩
    intro y
    constructor
    · intro hy
      have hty := (inv.memSet i S hiS y).mp hy
      exact (inv.connIff x y i i htx hty).mpr rfl
    · intro hconn
      exact mem_runClusters_set_of_connected htx hiS hconn
  · rintro ⟨x, htx, hS⟩
    obtain ⟨i, hi⟩ := Option.isSome_iff_exists.mp ((inv.touchedIff x).mpr htx)
    obtain ⟨S', hS'⟩ := inv.setExists x i hi
    have hSS : S = S' := by
      apply Finset.ext
      intro y
      rw [hS y]
      constructor
      · intro hconn
        exact mem_runClusters_set_of_connected hi hS' hconn
      · intro hy
        have hty := (inv.memSet i S' hS' y).mp hy
        exact (inv.connIff x y i i hi hty).mpr rfl
    rw [hSS]
    exact List.mem_map.mpr ⟨(i, S'), hS', rfl⟩

/-! ### Claim theorems for the clusterer -/

/-- C8: the sets returned by `get_conflict_sets` are pairwise disjoint;
an id appears in some returned set iff it appears in at least one
non-`NoConflict` entry (so ids appearing only in `NoConflict` entries
appear in none), and any id lies in at most one returned set — together,
every touched id lies in exactly one returned set. -/
theorem claim_C8_partition (conflicts : ConflictMap) :
    List.Pairwise (fun S T => Disjoint S T) (get_conflict_sets conflicts) ∧
    (∀ x, touched conflicts x ↔ ∃ S ∈ get_conflict_sets conflicts, x ∈ S) ∧
    (∀ x S T, S ∈ get_conflict_sets conflicts → T ∈ get_conflict_sets conflicts →
      x ∈ S → x ∈ T → S = T) := by
  have inv := clusterInv_runClusters conflicts
  refine ⟨?_, ?_, ?_⟩
  · unfold get_conflict_sets
    rw [@List.Perm.pairwise_iff (Finset Nat) (fun S T => Disjoint S T)
      (fun h => h.symm) _ _ (sortBySizeDesc_perm _)]
    rw [List.pairwise_map]
    have hkeys : List.Pairwise (fun p q : Int × Finset Nat => p.1 ≠ q.1)
        (runClusters conflicts).sets := by
      have := inv.keysNodup
      rw [List.Nodup, List.pairwise_map] at this
      exact this
    refine hkeys.imp_of_mem ?_
    intro p q hp hq hne
    obtain ⟨i, S⟩ := p
    obtain ⟨j, T⟩ := q
    rw [Finset.disjoint_left]
    intro x hxS hxT
    have hi := (inv.memSet i S hp x).mp hxS
    have hj := (inv.memSet j T hq x).mp hxT
    rw [hi] at hj
    exact hne (Option.some.inj hj)
  · intro x
    constructor
    · intro htx
      obtain ⟨i, hi⟩ := Option.isSome_iff_exists.mp ((inv.touchedIff x).mpr htx)
      obtain ⟨S, hS⟩ := inv.setExists x i hi
      exact ⟨S, (mem_get_conflict_sets _ _).mpr (List.mem_map.mpr ⟨(i, S), hS, rfl⟩),
        (inv.memSet i S hS x).mpr hi⟩
    · rintro ⟨S, hSmem, hxS⟩
      obtain ⟨⟨i, S'⟩, hiS, hsnd⟩ := List.mem_map.mp ((mem_get_conflict_sets _ _).mp hSmem)
      have hSS : S' = S := hsnd
      rw [hSS] at hiS
      have hi := (inv.memSet i S hiS x).mp hxS
      exact (inv.touchedIff x).mp (by rw [hi]; rfl)
  · intro x S T hSmem hTmem hxS hxT
    obtain ⟨⟨i, S'⟩, hiS, hsnd⟩ := List.mem_map.mp ((mem_get_conflict_sets _ _).mp hSmem)
    have hSS : S' = S := hsnd
    rw [hSS] at hiS
    obtain ⟨⟨j, T'⟩, hjT, htnd⟩ := List.mem_map.mp ((mem_get_conflict_sets _ _).mp hTmem)
    have hTT : T' = T := htnd
    rw [hTT] at hjT
    have hi := (inv.memSet i S hiS x).mp hxS
    have hj := (inv.memSet j T hjT x).mp hxT
    rw [hi] at hj
    have hij : i = j := Option.some.inj hj
    subst hij
    exact value_eq_of_mem_nodup inv.keysNodup hiS hjT

theorem claim_C8_witness :
    ∃ S ∈ get_conflict_sets [((1, 2), Conflict.Fatal)], 1 ∈ S :=
  ((claim_C8_partition [((1, 2), Conflict.Fatal)]).2.1 1).mp
    ⟨1, 2, Conflict.Fatal, by decide, by decide, Or.inl rfl⟩

/-- C9: if some non-`NoConflict` entry connects `a` and `b` (in either
direction) and another connects `b` and `c`, then `a`, `b` and `c` all lie
in one common returned set. -/
theorem claim_C9_transitivity (conflicts : ConflictMap) (a b c : Nat)
    (hab : adjacent conflicts a b) (hbc : adjacent conflicts b c) :
    ∃ S ∈ get_conflict_sets conflicts, a ∈ S ∧ b ∈ S ∧ c ∈ S := by
  have inv := clusterInv_runClusters conflicts
  have hta : touched conflicts a := touched_of_adjacent_left hab
  obtain ⟨i, hi⟩ := Option.isSome_iff_exists.mp ((inv.touchedIff a).mpr hta)
  obtain ⟨S, hS⟩ := inv.setExists a i hi
  refine ⟨S, (mem_get_conflict_sets _ _).mpr (List.mem_map.mpr ⟨(i, S), hS, rfl⟩),
    (inv.memSet i S hS a).mpr hi, ?_, ?_⟩
  · exact mem_runClusters_set_of_connected hi hS (adjacent_connected hab)
  · exact mem_runClusters_set_of_connected hi hS
      ((adjacent_connected hab).trans (adjacent_connected hbc))

theorem claim_C9_witness :
    ∃ S ∈ get_conflict_sets [((1, 2), Conflict.Fatal), ((2, 3), Conflict.Fatal)],
      1 ∈ S ∧ 2 ∈ S ∧ 3 ∈ S :=
  claim_C9_transitivity [((1, 2), Conflict.Fatal), ((2, 3), Conflict.Fatal)] 1 2 3
    (Or.inl ⟨Conflict.Fatal, by decide, by decide⟩)
    (Or.inl ⟨Conflict.Fatal, by decide, by decide⟩)

/-- C7: for a fixed ConflictMap, processing the entries in any two orders
yields the same partition, compared as a set of sets of identifiers. -/
theorem claim_C7_order_independence {l1 l2 : ConflictMap} (h : l1.Perm l2) :
    (get_conflict_sets l1).toFinset = (get_conflict_sets l2).toFinset := by
  have hmem : ∀ p, p ∈ l1 ↔ p ∈ l2 := fun p => h.mem_iff
  apply Finset.ext
  intro S
  rw [List.mem_toFinset, List.mem_toFinset,
    mem_get_conflict_sets_iff_component, mem_get_conflict_sets_iff_component]
  constructor
  · rintro ⟨x, htx, hS⟩
    exact ⟨x, (touched_congr hmem).mp htx,
      fun y => (hS y).trans (connected_congr hmem)⟩
  · rintro ⟨x, htx, hS⟩
    exact ⟨x, (touched_congr hmem).mpr htx,
      fun y => (hS y).trans (connected_congr hmem).symm⟩

theorem claim_C7_witness :
    (get_conflict_sets [((1, 2), Conflict.Fatal), ((3, 4), Conflict.Nonce 9)]).toFinset =
      (get_conflict_sets [((3, 4), Conflict.Nonce 9), ((1, 2), Conflict.Fatal)]).toFinset :=
  claim_C7_order_independence (List.Perm.swap _ _ _)

end RBuilder
